import Mathlib

/-!
Shallow embedding of the agent core of the `cloud.ddb` repository:
the XML-lite response parser, the options normalization, the tool
dispatcher (`agent/tool_manager.py`), the PLAN/ACT agent loop
(`agent/interactive_sql_executor.py`), and the retrieval pipeline's
chunking and merge/rank stages (`rag/candidate_selector.py`).

Python strings are modelled as `List Char`; Python dynamic values as
the inductive `PyVal`; machine-external effects (the LLM, tool bodies,
interactive resumption) as explicit environment functions.
-/

namespace CloudDdb

/-- Model of a Python dynamic value (the JSON-serializable fragment):
`None`, booleans, integers, strings, lists and dicts.  Dicts are
association lists in insertion order, as in CPython. -/
inductive PyVal : Type where
  | none : PyVal
  | bool : Bool → PyVal
  | int : Int → PyVal
  | str : String → PyVal
  | list : List PyVal → PyVal
  | dict : List (String × PyVal) → PyVal

/-- Python truthiness (`bool(v)`) on the modelled fragment. -/
def PyVal.truthy : PyVal → Bool
  | .none => false
  | .bool b => b
  | .int n => n != 0
  | .str s => s ≠ ""
  | .list l => !l.isEmpty
  | .dict l => !l.isEmpty

/-- Dict lookup, `d.get(k)`: first binding for `k` (bindings are unique
in a CPython dict, so first = only). -/
def PyVal.get : PyVal → String → Option PyVal
  | .dict l, k => (l.find? (fun p => p.1 = k)).map Prod.snd
  | _, _ => Option.none

/-- True iff the value is a Python `dict` (`isinstance(v, dict)`). -/
def PyVal.isDict : PyVal → Bool
  | .dict _ => true
  | _ => false

/-- Characters treated as whitespace by Python's `str.strip()`
(ASCII fragment). -/
def isPyWs (c : Char) : Bool :=
  c = ' ' || c = '\t' || c = '\n' || c = '\x0d' || c = '\x0b' || c = '\x0c'

/-- Python `str.strip()` on a character list. -/
def strip (s : List Char) : List Char :=
  ((s.dropWhile isPyWs).reverse.dropWhile isPyWs).reverse

/-- Python `str.split(',')`: always returns at least one (possibly
empty) piece. -/
def splitComma : List Char → List (List Char)
  | [] => [[]]
  | c :: t =>
    if c = ',' then [] :: splitComma t
    else
      match splitComma t with
      | [] => [[c]]
      | h :: r => (c :: h) :: r

/-- Index of the first occurrence of `pat` as a contiguous sublist of
`s` (the semantics of `re.search` for a literal pattern). -/
def findSub (pat : List Char) : List Char → Option Nat
  | [] => if pat.isEmpty then some 0 else Option.none
  | c :: t =>
    if pat.isPrefixOf (c :: t) then some 0
    else (findSub pat t).map (· + 1)

/-- Whether `pat` occurs as a contiguous sublist of `s`. -/
def hasSub (pat s : List Char) : Bool :=
  (findSub pat s).isSome

/-- The character class `[a-zA-Z0-9_]` of the parameter-name pattern. -/
def isWordChar (c : Char) : Bool :=
  ('a' ≤ c && c ≤ 'z') || ('A' ≤ c && c ≤ 'Z') || ('0' ≤ c && c ≤ '9') || c = '_'

/-- JSON whitespace accepted by `json.loads` between tokens. -/
def isJsonWs (c : Char) : Bool :=
  c = ' ' || c = '\t' || c = '\n' || c = '\x0d'

def skipWs (s : List Char) : List Char := s.dropWhile isJsonWs

/-- Scan of a JSON string body after the opening quote.  Supports the
escapes `\" \\ \/ \b \f \n \r \t`; `\u` escapes and raw control
characters are rejected (a conservative fragment of `json.loads`:
every accepted input is accepted with the same value by CPython). -/
def jsonStringBody : List Char → Option (List Char × List Char)
  | [] => Option.none
  | c :: t =>
    if c = '"' then some ([], t)
    else if c = '\\' then
      match t with
      | [] => Option.none
      | e :: t2 =>
        let esc : Option Char :=
          if e = '"' then some '"'
          else if e = '\\' then some '\\'
          else if e = '/' then some '/'
          else if e = 'b' then some '\x08'
          else if e = 'f' then some '\x0c'
          else if e = 'n' then some '\n'
          else if e = 'r' then some '\x0d'
          else if e = 't' then some '\t'
          else Option.none
        match esc with
        | some d => (jsonStringBody t2).map (fun p => (d :: p.1, p.2))
        | Option.none => Option.none
    else if c.toNat < 32 then Option.none
    else (jsonStringBody t).map (fun p => (c :: p.1, p.2))

/-- Digits prefix of a character list together with the remainder. -/
def takeDigits (s : List Char) : List Char × List Char :=
  (s.takeWhile Char.isDigit, s.dropWhile Char.isDigit)

/-- Value of a digit string. -/
def digitsVal (l : List Char) : Nat :=
  l.foldl (fun a c => a * 10 + (c.toNat - 48)) 0

/-- JSON integer after an optional minus sign: `0` or a nonzero digit
followed by digits; a leading zero before further digits is rejected,
as in `json.loads`.  Floats (a `.`, `e` or `E` after the digits) are
rejected: the model covers the integer fragment only. -/
def jsonNumber (neg : Bool) (s : List Char) : Option (PyVal × List Char) :=
  match takeDigits s with
  | ([], _) => Option.none
  | (d :: ds, rest) =>
    if d = '0' && !ds.isEmpty then Option.none
    else
      match rest with
      | r :: _ =>
        if r = '.' || r = 'e' || r = 'E' then Option.none
        else
          let n : Int := Int.ofNat (digitsVal (d :: ds))
          some (.int (if neg then -n else n), rest)
      | [] =>
        let n : Int := Int.ofNat (digitsVal (d :: ds))
        some (.int (if neg then -n else n), rest)

mutual

/-- One JSON value at the head of the input (whitespace already
skipped), with the unconsumed remainder.  `fuel` bounds nesting. -/
def jsonValue : Nat → List Char → Option (PyVal × List Char)
  | 0, _ => Option.none
  | _ + 1, [] => Option.none
  | fuel + 1, c :: t =>
    if c = 'n' then
      if ['u', 'l', 'l'].isPrefixOf t then some (.none, t.drop 3) else Option.none
    else if c = 't' then
      if ['r', 'u', 'e'].isPrefixOf t then some (.bool true, t.drop 3) else Option.none
    else if c = 'f' then
      if ['a', 'l', 's', 'e'].isPrefixOf t then some (.bool false, t.drop 4) else Option.none
    else if c = '"' then
      (jsonStringBody t).map (fun p => (.str (String.mk p.1), p.2))
    else if c = '-' then jsonNumber true t
    else if c.isDigit then jsonNumber false (c :: t)
    else if c = '[' then
      match skipWs t with
      | ']' :: r => some (.list [], r)
      | u => (jsonElems fuel u).map (fun p => (.list p.1, p.2))
    else if c = '\x7b' then
      match skipWs t with
      | '\x7d' :: r => some (.dict [], r)
      | u => (jsonMembers fuel u).map (fun p => (.dict p.1, p.2))
    else Option.none

/-- Comma-separated array elements up to the closing bracket. -/
def jsonElems : Nat → List Char → Option (List PyVal × List Char)
  | 0, _ => Option.none
  | fuel + 1, s =>
    match jsonValue fuel (skipWs s) with
    | Option.none => Option.none
    | some (v, rest) =>
      match skipWs rest with
      | ']' :: r => some ([v], r)
      | ',' :: r =>
        (jsonElems fuel r).map (fun p => (v :: p.1, p.2))
      | _ => Option.none

/-- Comma-separated object members up to the closing brace. -/
def jsonMembers : Nat → List Char → Option (List (String × PyVal) × List Char)
  | 0, _ => Option.none
  | fuel + 1, s =>
    match skipWs s with
    | '"' :: t =>
      match jsonStringBody t with
      | Option.none => Option.none
      | some (k, rest) =>
        match skipWs rest with
        | ':' :: r =>
          match jsonValue fuel (skipWs r) with
          | Option.none => Option.none
          | some (v, rest2) =>
            match skipWs rest2 with
            | '\x7d' :: r2 => some ([(String.mk k, v)], r2)
            | ',' :: r2 => (jsonMembers fuel r2).map (fun p => ((String.mk k, v) :: p.1, p.2))
            | _ => Option.none
        | _ => Option.none
    | _ => Option.none

end

/-- Model of Python's `json.loads` on the fragment above: parse one
value and require only whitespace to remain. -/
def jsonLoads (s : List Char) : Option PyVal :=
  match jsonValue (s.length + 1) (skipWs s) with
  | some (v, rest) => if (skipWs rest).isEmpty then some v else Option.none
  | Option.none => Option.none

mutual

/-- Python `repr` of a modelled value (used inside `str` of a
container).  String escaping is not modelled; the claims never
exercise it. -/
def pyRepr : PyVal → String
  | .none => "None"
  | .bool true => "True"
  | .bool false => "False"
  | .int n => toString n
  | .str s => "\x27" ++ s ++ "\x27"
  | .list l => "[" ++ String.intercalate ", " (pyReprList l) ++ "]"
  | .dict l => "\x7b" ++ String.intercalate ", " (pyReprDict l) ++ "\x7d"

def pyReprList : List PyVal → List String
  | [] => []
  | v :: t => pyRepr v :: pyReprList t

def pyReprDict : List (String × PyVal) → List String
  | [] => []
  | p :: t => ("\x27" ++ p.1 ++ "\x27: " ++ pyRepr p.2) :: pyReprDict t

end

/-- Python `str(v)` of a modelled value. -/
def pyStr : PyVal → String
  | .str s => s
  | v => pyRepr v

/-! ## Response parser (`InteractiveSQLExecutor._parse_xml_response`) -/

/-- A conversation entry (`{role, content}` dict); multi-part content
is the loop's three-part tool-result message. -/
inductive EContent : Type where
  | s : String → EContent
  | parts : List String → EContent
deriving DecidableEq

structure Entry : Type where
  role : String
  content : EContent
deriving DecidableEq

/-- A parsed tool-argument value: an ordinary parameter is a stripped
string; a normalized `options` parameter is a Python list; the
conversation history injected for the retrieval tool is the history
list itself. -/
inductive ArgVal : Type where
  | s : String → ArgVal
  | l : List PyVal → ArgVal
  | hist : List Entry → ArgVal

structure ParsedAction : Type where
  tool_name : String
  arguments : List (String × ArgVal)

structure ParsedResp : Type where
  thought : String
  action : Option ParsedAction

/-- Normalization of an `options` parameter value (lines 68-83 of
`interactive_sql_executor.py`): try `json.loads` on the stripped
value; a JSON array is kept as the parsed list, any other parsed value
becomes the one-element list of its `str`; if parsing fails, split on
commas, strip each piece, and drop empty pieces. -/
def normalizeOptions (valueStr : List Char) : ArgVal :=
  match jsonLoads (strip valueStr) with
  | some (.list xs) => .l xs
  | some v => .l [.str (pyStr v)]
  | Option.none =>
      .l ((splitComma valueStr).filterMap (fun o =>
        let t := strip o
        if t.isEmpty then Option.none else some (.str (String.mk t))))

/-- CPython dict assignment `params[k] = v`: replace in place if the
key exists, else append. -/
def setParam (ps : List (String × ArgVal)) (k : String) (v : ArgVal) :
    List (String × ArgVal) :=
  if ps.any (fun p => p.1 = k) then
    ps.map (fun p => if p.1 = k then (k, v) else p)
  else ps ++ [(k, v)]

/-- Scan of `re.findall(r"<([a-zA-Z0-9_]+)>(.*?)</\1>", s, DOTALL)`:
left to right; at each `<` take the maximal word-character run; if it
is nonempty and followed by `>`, the value runs to the first matching
close tag (non-greedy); matches do not overlap. -/
def findParamPairsAux : Nat → List Char → List (List Char × List Char)
  | 0, _ => []
  | _ + 1, [] => []
  | fuel + 1, c :: t =>
    if c = '<' then
      let name := t.takeWhile isWordChar
      if !name.isEmpty && (t.drop name.length).head? = some '>' then
        let afterOpen := t.drop (name.length + 1)
        match findSub ('<' :: '/' :: (name ++ ['>'])) afterOpen with
        | some k =>
            (name, afterOpen.take k) ::
              findParamPairsAux fuel (afterOpen.drop (k + (name.length + 3)))
        | Option.none => findParamPairsAux fuel t
      else findParamPairsAux fuel t
    else findParamPairsAux fuel t

def findParamPairs (s : List Char) : List (List Char × List Char) :=
  findParamPairsAux s.length s

/-- One found pair entered into the `params` dict, applying the
`options` normalization (lines 68-85). -/
def buildStep (acc : List (String × ArgVal)) (p : List Char × List Char) :
    List (String × ArgVal) :=
  let name := String.mk p.1
  if name = "options" then setParam acc name (normalizeOptions p.2)
  else setParam acc name (.s (String.mk (strip p.2)))

/-- Accumulate the found parameter pairs into the `params` dict. -/
def buildParams (pairs : List (List Char × List Char)) : List (String × ArgVal) :=
  pairs.foldl buildStep []

/-- First occurrence of any known tool's opening tag `<t>`: smallest
index wins; at equal index, the order of `known_tools` wins (exactly
the leftmost-match-then-alternation-order semantics of
`re.search("<(t1|t2|...)>")`). -/
def toolTagAt (tools : List String) (s : List Char) : Option String :=
  tools.find? (fun t => ('<' :: (t.toList ++ ['>'])).isPrefixOf s)

def findToolTag (tools : List String) : List Char → Option (Nat × String)
  | [] => Option.none
  | c :: rest =>
    match toolTagAt tools (c :: rest) with
    | some t => some (0, t)
    | Option.none => (findToolTag tools rest).map (fun p => (p.1 + 1, p.2))

/-- The thinking-block split (lines 33-37): the first
`<thinking>...</thinking>` match gives the stripped thought and the
text after its end; if there is no full match, the thought falls back
to the literal placeholder and the whole text is searched for tools. -/
def extractThought (cs : List Char) : String × List Char :=
  match findSub "<thinking>".toList cs with
  | some i =>
    let afterOpen := cs.drop (i + 10)
    match findSub "</thinking>".toList afterOpen with
    | some j => (String.mk (strip (afterOpen.take j)), afterOpen.drop (j + 11))
    | Option.none => ("No thought provided.", cs)
  | Option.none => ("No thought provided.", cs)

/-- The full parser `_parse_xml_response` on a character list. -/
def parseChars (cs : List Char) (knownTools : List String) : ParsedResp :=
  let (thought, rest) := extractThought cs
  match findToolTag knownTools rest with
  | Option.none => ⟨thought, Option.none⟩
  | some (_, toolName) =>
    match findSub ('<' :: (toolName.toList ++ ['>'])) rest with
    | Option.none => ⟨thought, Option.none⟩
    | some p =>
      let afterOpen := rest.drop (p + (toolName.toList.length + 2))
      match findSub ('<' :: '/' :: (toolName.toList ++ ['>'])) afterOpen with
      | Option.none => ⟨thought, Option.none⟩
      | some k =>
        let content := strip (afterOpen.take k)
        ⟨thought, some ⟨toolName, buildParams (findParamPairs content)⟩⟩

/-- `_parse_xml_response` on a string. -/
def parseResponse (text : String) (knownTools : List String) : ParsedResp :=
  parseChars text.toList knownTools

/-! ## Tool manager (`agent/tool_manager.py`) -/

/-- Modelled from the spec: `ExecutionResult` (`agent/execution_result.py`
is not in the provided sources).  `{success: bool, data: any,
error_message: string?}`; `executed_script` is irrelevant to the
claims and omitted. -/
structure ExecResult : Type where
  success : Bool
  data : PyVal
  error_message : Option String

/-- Observable events yielded by the loop, the dispatcher and tools.
A `llmCall` marks one model invocation (the stream of `llm_chunk`
yields); the other constructors mirror the task-status records. -/
inductive Event : Type where
  | taskStart : Event
  | llmCall : Event
  | thought : String → Event
  | action : String → List (String × ArgVal) → Event
  | observation : String → Bool → Event
  | interactive : PyVal → Event
  | progress : String → Event
  | taskEnd : Bool → String → Event

/-- Behavior of one `tool.run(validated_args)` generator: a sequence
of forwarded progress events followed by either a raised exception or
a returned `Optional[ExecutionResult]`. -/
inductive ToolRun : Type where
  | raises : List Event → String → ToolRun
  | returns : List Event → Option ExecResult → ToolRun

/-- Modelled from the spec: the Tool Contract (`agent/tools/
tool_interface.py` is not in the provided sources): a named tool has a
validation step (`args_schema.model_validate`, which may raise) and an
execution step. -/
structure ToolSpec : Type where
  validate : List (String × ArgVal) → Except String (List (String × ArgVal))
  run : List (String × ArgVal) → ToolRun

/-- Outcome of `ToolManager.call_tool` as observed by its caller:
the `ToolNotFoundError` raise, the `ToolArgumentValidationError`
raise (with the events already forwarded before the raise), or the
returned result (with its forwarded events). -/
inductive CallRes : Type where
  | notFound : CallRes
  | argError : List Event → String → CallRes
  | ok : List Event → Option ExecResult → CallRes

/-- `ToolManager.call_tool` (lines 32-44): unregistered name raises
`ToolNotFoundError`; otherwise validation and execution both run
inside one `try`, and ANY exception from either is wrapped into
`ToolArgumentValidationError` with the "Error validating arguments"
message. -/
def call_tool (tools : List (String × ToolSpec)) (toolName : String)
    (args : List (String × ArgVal)) : CallRes :=
  match (tools.find? (fun p => p.1 = toolName)).map Prod.snd with
  | Option.none => .notFound
  | some t =>
    match t.validate args with
    | .error e =>
        .argError []
          ("Error validating arguments for tool \x27" ++ toolName ++ "\x27: " ++ e)
    | .ok va =>
      match t.run va with
      | .raises evs e =>
          .argError evs
            ("Error validating arguments for tool \x27" ++ toolName ++ "\x27: " ++ e)
      | .returns evs r => .ok evs r

/-! ## Agent loop (`InteractiveSQLExecutor.execute_task`) -/

/-- The loop's environment: the registered tools (registration
order), the model's final text for each turn, and the host's
resumption value for an interactive request (`None` models resumption
by `next()` instead of `send()`). -/
structure AgentEnv : Type where
  tools : List (String × ToolSpec)
  llm : Nat → String
  resume : PyVal → Option String

/-- `get_tool_definitions(mode="ACT")` exposes every registered tool
except `plan_mode_response`; the prompt-name mapping in the executor
is the identity on these names. -/
def knownTools (env : AgentEnv) : List String :=
  (env.tools.map Prod.fst).filter (fun n => n ≠ "plan_mode_response")

/-- Mutable loop state at the top of an iteration (`turn_count`,
`consecutive_errors`, and the caller-owned history). -/
structure LoopSt : Type where
  turn : Nat
  errs : Nat
  history : List Entry

/-- Result of one loop iteration: the task returns (with the events
yielded during the iteration and the generator's return value, which
is the history on a completion signal and `None` otherwise, including
when the iteration's exception was swallowed by the outer handler
without any terminal event), or the loop continues in a new state. -/
inductive IterOut : Type where
  | ended : List Event → Option (List Entry) → IterOut
  | cont : List Event → LoopSt → IterOut

/-- The environment-details trailer appended as the third part of
every tool-result message (lines 286-291). -/
def envDetailsText : String :=
  "<environment_details>\n                In each user message, the environment_details will specify the current mode. There are two modes:\n                - ACT MODE: In this mode, you have access to all tools EXCEPT the plan_mode_response tool.\n                - PLAN MODE: In this special mode, you have access to the plan_mode_response tool.\n                Current Mode: ACT\n                </environment_details>"

/-- The three-part tool-result message (lines 294-304). -/
def toolResultEntry (toolName obs : String) : Entry :=
  ⟨"user", .parts ["[" ++ toolName ++ "] Result:", obs, envDetailsText]⟩

/-- Serialization of an ordinary successful payload for the
observation (line 275): pretty JSON for dicts and lists, `str`
otherwise. -/
def indentPad (lvl : Nat) : String := String.mk (List.replicate (2 * lvl) ' ')

/-- JSON string quoting for `json.dumps` (basic escapes;
`ensure_ascii=False`). -/
def jsonQuote (s : String) : String :=
  "\"" ++ String.join (s.toList.map (fun c =>
    if c = '"' then "\\\""
    else if c = '\\' then "\\\\"
    else if c = '\n' then "\\n"
    else if c = '\t' then "\\t"
    else if c = '\x0d' then "\\r"
    else String.mk [c])) ++ "\""

mutual

/-- Model of `json.dumps(v, indent=2, ensure_ascii=False)`. -/
def pyDumps : Nat → PyVal → String
  | _, .none => "null"
  | _, .bool true => "true"
  | _, .bool false => "false"
  | _, .int n => toString n
  | _, .str s => jsonQuote s
  | _, .list [] => "[]"
  | lvl, .list (v :: t) =>
      "[\n" ++
        String.intercalate ",\n" (pyDumpsList (lvl + 1) (v :: t)) ++
      "\n" ++ indentPad lvl ++ "]"
  | _, .dict [] => "\x7b\x7d"
  | lvl, .dict (p :: t) =>
      "\x7b\n" ++
        String.intercalate ",\n" (pyDumpsDict (lvl + 1) (p :: t)) ++
      "\n" ++ indentPad lvl ++ "\x7d"

def pyDumpsList : Nat → List PyVal → List String
  | _, [] => []
  | lvl, v :: t => (indentPad lvl ++ pyDumps lvl v) :: pyDumpsList lvl t

def pyDumpsDict : Nat → List (String × PyVal) → List String
  | _, [] => []
  | lvl, p :: t =>
      (indentPad lvl ++ jsonQuote p.1 ++ ": " ++ pyDumps lvl p.2) :: pyDumpsDict lvl t

end

/-- The observation text for an ordinary success (lines 272-277). -/
def ordinaryObservation (d : PyVal) : String :=
  match d with
  | .dict _ => pyDumps 0 d
  | .list _ => pyDumps 0 d
  | _ => pyStr d

/-- Line 159: the fatal turn-limit message, with `max_turns = 150`. -/
def turnLimitMsg : String :=
  "Task aborted: Exceeded maximum total turns (150)."

/-- Line 225: the fatal message after five consecutive parse
failures. -/
def errBudgetNoActionMsg : String :=
  "Task aborted after 5 consecutive errors. The agent was unable to proceed."

/-- Line 244: the fatal message after five consecutive tool failures;
the last error text is appended. -/
def errBudgetToolMsg (em : String) : String :=
  "Task aborted after 5 consecutive errors. Last error:\n\n" ++ em

/-- Line 221: the synthetic observation after a parse failure. -/
def noActionObs : String :=
  "Agent did not produce a valid action. Please analyze the history and decide the next step."

/-- Lines 250-255: the synthetic observation after a non-fatal tool
failure. -/
def toolFailObs (toolName em : String) : String :=
  "Action \x27" ++ toolName ++ "\x27 failed with the following error:\n\n```\n" ++
    em ++
    "\n```\n\nI need to analyze this error and decide how to fix it. I should use tools like `search_knowledge_base` or `get_function_documentation` to get more information before trying again."

/-- Line 237: `is_error = not exec_result or not exec_result.success`. -/
def isErrOf : Option ExecResult → Bool
  | Option.none => true
  | some er => !er.success

/-- Line 243: the error text used in the fatal five-errors message. -/
def fatalEm : Option ExecResult → String
  | Option.none => "Unknown error."
  | some er => er.error_message.getD "None"

/-- Line 246: the error text quoted in the non-fatal failure
observation. -/
def toolFailEm : Option ExecResult → String
  | Option.none => "An unknown error occurred."
  | some er => er.error_message.getD "None"

/-- Line 256: `isinstance(data, dict) and data.get("_is_completion_signal")`. -/
def isCompletionSignal (d : PyVal) : Bool :=
  d.isDict && (d.get "_is_completion_signal").any PyVal.truthy

/-- Line 262: `isinstance(data, dict) and data.get("_is_interactive_request")`. -/
def isInteractiveRequest (d : PyVal) : Bool :=
  d.isDict && (d.get "_is_interactive_request").any PyVal.truthy

/-- Lines 237-307: processing of a dispatch that returned (rather than
raised).  `turn` and `hist` are the already-updated turn counter and
history; `errs` is the error counter before this observation. -/
def observeStep (turn errs : Nat) (hist : List Entry) (toolName : String)
    (resume : PyVal → Option String) (r : Option ExecResult) : IterOut :=
  if isErrOf r then
    if errs + 1 ≥ 5 then
      .ended [.taskEnd false (errBudgetToolMsg (fatalEm r))] Option.none
    else
      let obs := toolFailObs toolName (toolFailEm r)
      .cont [.observation obs true]
        ⟨turn, errs + 1, hist ++ [toolResultEntry toolName obs]⟩
  else
    match r with
    | Option.none => .ended [] Option.none
    | some er =>
      if isCompletionSignal er.data then
        match er.data.get "result" with
        | some (.str res) =>
            .ended [.observation "Task completion signaled." false, .taskEnd true res]
              (some hist)
        | some _ => .ended [.observation "Task completion signaled." false] Option.none
        | Option.none => .ended [.observation "Task completion signaled." false] Option.none
      else if isInteractiveRequest er.data then
        match resume er.data with
        | some s =>
          if s ≠ "" then
            let obs := "User responded with: \x27" ++ s ++ "\x27"
            .cont [.interactive er.data, .observation obs false]
              ⟨turn, 0, hist ++ [⟨"user", .s s⟩, toolResultEntry toolName obs]⟩
          else
            let obs := "Resumed without user input. Continuing with current plan."
            .cont [.interactive er.data, .observation obs false]
              ⟨turn, 0, hist ++ [toolResultEntry toolName obs]⟩
        | Option.none =>
            let obs := "Resumed without user input. Continuing with current plan."
            .cont [.interactive er.data, .observation obs false]
              ⟨turn, 0, hist ++ [toolResultEntry toolName obs]⟩
      else
        let obs := ordinaryObservation er.data
        .cont [.observation obs false]
          ⟨turn, 0, hist ++ [toolResultEntry toolName obs]⟩

/-- Line 232: the conversation history is injected as an implicit
argument when the chosen tool is the retrieval tool. -/
def injectedArgs (act : ParsedAction) (hist : List Entry) : List (String × ArgVal) :=
  if act.tool_name = "search_knowledge_base" then
    setParam act.arguments "conversation_history" (.hist hist)
  else act.arguments

/-- One iteration of the `while True` loop (lines 156-307) from the
state at the top of the iteration. -/
def runIter (env : AgentEnv) (st : LoopSt) : IterOut :=
  let turn := st.turn + 1
  if 150 < turn then
    .ended [.taskEnd false turnLimitMsg] Option.none
  else
    let resp := env.llm turn
    let parsed := parseResponse resp (knownTools env)
    let hist := st.history ++ [⟨"assistant", .s resp⟩]
    let evs0 := [Event.llmCall, Event.thought parsed.thought]
    match parsed.action with
    | Option.none =>
      let hist2 := hist ++ [⟨"tool_result", .s noActionObs⟩]
      if st.errs + 1 ≥ 5 then
        .ended (evs0 ++ [.observation noActionObs true, .taskEnd false errBudgetNoActionMsg])
          Option.none
      else .cont (evs0 ++ [.observation noActionObs true]) ⟨turn, st.errs + 1, hist2⟩
    | some act =>
      let args := injectedArgs act hist
      let evs1 := evs0 ++ [Event.action act.tool_name args]
      match call_tool env.tools act.tool_name args with
      | .notFound => .ended evs1 Option.none
      | .argError tevs _ => .ended (evs1 ++ tevs) Option.none
      | .ok tevs r =>
        match observeStep turn st.errs hist act.tool_name env.resume r with
        | .ended evs ret => .ended (evs1 ++ tevs ++ evs) ret
        | .cont evs st2 => .cont (evs1 ++ tevs ++ evs) st2

/-- How the whole task run ended: a completion signal (the history is
returned), any other exit of the generator (budget exhaustion or a
swallowed exception), or out of model fuel with the loop still
running. -/
inductive RunEnd : Type where
  | completed : List Entry → RunEnd
  | halted : RunEnd
  | fuelOut : LoopSt → RunEnd

structure RunAcc : Type where
  events : List Event
  outcome : RunEnd

/-- Iterate the loop at most `fuel` times. -/
def runLoop (env : AgentEnv) : Nat → LoopSt → RunAcc
  | 0, st => ⟨[], .fuelOut st⟩
  | fuel + 1, st =>
    match runIter env st with
    | .ended evs ret =>
        ⟨evs, match ret with
          | some h => .completed h
          | Option.none => .halted⟩
    | .cont evs st2 =>
        let r := runLoop env fuel st2
        ⟨evs ++ r.events, r.outcome⟩

/-- `execute_task` (without the injected-context formatting, which
only alters the prompt): append the user message unless it is already
the last entry, then drive the loop; 151 iterations always suffice
because the turn check is fatal at 151. -/
def execute_task (env : AgentEnv) (userInput : String) (history0 : List Entry) :
    RunAcc :=
  let h1 :=
    if history0.isEmpty ∨ (history0.getLast?.map Entry.content ≠ some (.s userInput)) then
      history0 ++ [⟨"user", .s userInput⟩]
    else history0
  let r := runLoop env 151 ⟨0, 0, h1⟩
  ⟨Event.taskStart :: r.events, r.outcome⟩

/-- Projection: the `(success, final_message)` of every `TaskEnd`
event in a trace. -/
def taskEnds (evs : List Event) : List (Bool × String) :=
  evs.filterMap (fun e =>
    match e with
    | .taskEnd s m => some (s, m)
    | _ => Option.none)

/-- Projection: the number of model invocations in a trace. -/
def countLlmCalls (evs : List Event) : Nat :=
  (evs.filter (fun e =>
    match e with
    | .llmCall => true
    | _ => false)).length

/-! ## Retrieval pipeline (`rag/candidate_selector.py`) -/

/-- The metadata of a `BaseIndexModel` consumed by the selector. -/
structure IndexItem : Type where
  file_path : String
  summary : String
  keywords : List String
deriving DecidableEq

/-- The compact `{file_path, summary, keywords}` record serialized
into a chunk (lines 128-132). -/
def toItemDict (it : IndexItem) : IndexItem := it

/-- `LLMCandidateSelector.MAX_TOKENS_PER_CHUNK`. -/
def MAX_TOKENS_PER_CHUNK : Nat := 128000

/-- The loop body of `_split_index_into_chunks` (lines 126-147),
parametrized by the token-cost measure `cost` (the composition
`count_tokens ∘ json.dumps`, an external tokenizer). -/
def splitChunksGo (cost : IndexItem → Nat) :
    List IndexItem → List IndexItem → Nat → List (List IndexItem)
  | [], cur, _ => if cur.isEmpty then [] else [cur]
  | it :: rest, cur, tok =>
    let d := toItemDict it
    let t := cost d
    if MAX_TOKENS_PER_CHUNK < tok + t && !cur.isEmpty then
      cur :: splitChunksGo cost rest [d] t
    else
      splitChunksGo cost rest (cur ++ [d]) (tok + t)

/-- `_split_index_into_chunks`. -/
def splitIndexIntoChunks (cost : IndexItem → Nat) (items : List IndexItem) :
    List (List IndexItem) :=
  splitChunksGo cost items [] 0

/-- A scored candidate parsed from a chunk response:
`cand.get("file_path")` (possibly absent) and `cand.get("score", 0)`. -/
structure Cand : Type where
  file_path : Option String
  score : Int
deriving DecidableEq

/-- One step of the `best_candidates` merge (lines 219-225): falsy
paths (absent or empty) are skipped; a new path is appended; an
existing path is replaced in place only by a strictly greater score. -/
def updateBest (acc : List Cand) (c : Cand) : List Cand :=
  match c.file_path with
  | Option.none => acc
  | some p =>
    if p = "" then acc
    else
      match acc.find? (fun d => d.file_path = some p) with
      | Option.none => acc ++ [c]
      | some d =>
        if d.score < c.score then
          acc.map (fun d2 => if d2.file_path = some p then c else d2)
        else acc

/-- The full merge of all chunk results in arrival order: the values
of the `best_candidates` dict in insertion order. -/
def mergeBest (l : List Cand) : List Cand := l.foldl updateBest []

/-- Stable descending insertion by score: the new element goes before
the first strictly smaller score, after equal scores already placed
later in the scan — together with `sortDesc` below this is exactly
Python's stable `sorted(..., key=score, reverse=True)`. -/
def insertDesc (c : Cand) : List Cand → List Cand
  | [] => [c]
  | d :: t => if d.score ≤ c.score then c :: d :: t else d :: insertDesc c t

def sortDesc : List Cand → List Cand
  | [] => []
  | c :: t => insertDesc c (sortDesc t)

/-- Lines 219-228 of `LLMCandidateSelector.select`: merge the chunk
results (in completion order) and rank by score descending, stable on
ties. -/
def mergeAndRank (results : List (List Cand)) : List Cand :=
  sortDesc (mergeBest results.flatten)

/-! ## Helper lemmas about the loop -/

/-- The comma-split-and-trim normalization described by the spec for
non-JSON `options` values. -/
def splitTrim (v : List Char) : List PyVal :=
  (splitComma v).filterMap (fun o =>
    let t := strip o
    if t.isEmpty then Option.none else some (.str (String.mk t)))

/-- The `consecutive_errors` value carried by a still-running loop
state, if the run stopped for fuel rather than by returning. -/
def fuelOutErrs : RunEnd → Option Nat
  | .fuelOut st => some st.errs
  | _ => Option.none

theorem runIter_parse_fail (env : AgentEnv) (st : LoopSt)
    (hturn : st.turn + 1 ≤ 150)
    (hparse : (parseResponse (env.llm (st.turn + 1)) (knownTools env)).action = Option.none)
    (hlt : st.errs + 1 < 5) :
    runIter env st = .cont
      [Event.llmCall, .thought (parseResponse (env.llm (st.turn + 1)) (knownTools env)).thought,
        .observation noActionObs true]
      ⟨st.turn + 1, st.errs + 1,
        (st.history ++ [⟨"assistant", .s (env.llm (st.turn + 1))⟩]) ++
          [⟨"tool_result", .s noActionObs⟩]⟩ := by
  simp only [runIter]
  rw [if_neg (by omega)]
  simp only [hparse]
  rw [if_neg (by omega)]
  rfl

theorem runIter_parse_fail_fatal (env : AgentEnv) (st : LoopSt)
    (hturn : st.turn + 1 ≤ 150)
    (hparse : (parseResponse (env.llm (st.turn + 1)) (knownTools env)).action = Option.none)
    (hge : 5 ≤ st.errs + 1) :
    runIter env st = .ended
      [Event.llmCall, .thought (parseResponse (env.llm (st.turn + 1)) (knownTools env)).thought,
        .observation noActionObs true, .taskEnd false errBudgetNoActionMsg]
      Option.none := by
  simp only [runIter]
  rw [if_neg (by omega)]
  simp only [hparse]
  rw [if_pos (by omega)]
  rfl

theorem observe_tool_fail (turn errs : Nat) (hist : List Entry) (toolName : String)
    (resume : PyVal → Option String) (r : Option ExecResult)
    (hfail : isErrOf r = true) (hlt : errs + 1 < 5) :
    observeStep turn errs hist toolName resume r =
      .cont [.observation (toolFailObs toolName (toolFailEm r)) true]
        ⟨turn, errs + 1,
          hist ++ [toolResultEntry toolName (toolFailObs toolName (toolFailEm r))]⟩ := by
  simp only [observeStep, hfail]
  rw [if_pos trivial, if_neg (by omega)]

theorem observe_tool_fail_fatal (turn errs : Nat) (hist : List Entry) (toolName : String)
    (resume : PyVal → Option String) (r : Option ExecResult)
    (hfail : isErrOf r = true) (hge : 5 ≤ errs + 1) :
    observeStep turn errs hist toolName resume r =
      .ended [.taskEnd false (errBudgetToolMsg (fatalEm r))] Option.none := by
  simp only [observeStep, hfail]
  rw [if_pos trivial, if_pos (by omega)]

theorem observe_completion (turn errs : Nat) (hist : List Entry) (toolName : String)
    (resume : PyVal → Option String) (er : ExecResult)
    (hsucc : er.success = true)
    (hsig : isCompletionSignal er.data = true)
    (R : String) (hres : er.data.get "result" = some (.str R)) :
    observeStep turn errs hist toolName resume (some er) =
      .ended [.observation "Task completion signaled." false, .taskEnd true R]
        (some hist) := by
  simp only [observeStep, isErrOf, hsucc, hsig, hres]
  rfl

theorem observe_success_resets (turn errs : Nat) (hist : List Entry) (toolName : String)
    (resume : PyVal → Option String) (er : ExecResult)
    (hsucc : er.success = true)
    (hsig : isCompletionSignal er.data = false) :
    ∃ evs h2, observeStep turn errs hist toolName resume (some er) =
      .cont evs ⟨turn, 0, h2⟩ := by
  simp only [observeStep, isErrOf, hsucc, hsig]
  cases hi : isInteractiveRequest er.data with
  | true =>
    cases hr : resume er.data with
    | none =>
      exact ⟨[.interactive er.data,
        .observation "Resumed without user input. Continuing with current plan." false],
        hist ++ [toolResultEntry toolName "Resumed without user input. Continuing with current plan."],
        by simp⟩
    | some s =>
      by_cases hs : s = ""
      · subst hs
        exact ⟨[.interactive er.data,
          .observation "Resumed without user input. Continuing with current plan." false],
          hist ++ [toolResultEntry toolName "Resumed without user input. Continuing with current plan."],
          by simp⟩
      · exact ⟨[.interactive er.data,
          .observation ("User responded with: \x27" ++ s ++ "\x27") false],
          hist ++ [⟨"user", .s s⟩,
            toolResultEntry toolName ("User responded with: \x27" ++ s ++ "\x27")],
          by simp [hs]⟩
  | false =>
    exact ⟨[.observation (ordinaryObservation er.data) false],
      hist ++ [toolResultEntry toolName (ordinaryObservation er.data)],
      by simp⟩

theorem runIter_dispatch (env : AgentEnv) (st : LoopSt) (th : String) (act : ParsedAction)
    (hturn : st.turn + 1 ≤ 150)
    (hparse : parseResponse (env.llm (st.turn + 1)) (knownTools env) = ⟨th, some act⟩) :
    runIter env st =
      (match call_tool env.tools act.tool_name
          (injectedArgs act (st.history ++ [⟨"assistant", .s (env.llm (st.turn + 1))⟩])) with
      | .notFound =>
          .ended [Event.llmCall, .thought th,
            .action act.tool_name
              (injectedArgs act (st.history ++ [⟨"assistant", .s (env.llm (st.turn + 1))⟩]))]
            Option.none
      | .argError tevs _ =>
          .ended ([Event.llmCall, .thought th,
            .action act.tool_name
              (injectedArgs act (st.history ++ [⟨"assistant", .s (env.llm (st.turn + 1))⟩]))] ++ tevs)
            Option.none
      | .ok tevs r =>
          match observeStep (st.turn + 1) st.errs
              (st.history ++ [⟨"assistant", .s (env.llm (st.turn + 1))⟩])
              act.tool_name env.resume r with
          | .ended evs ret =>
              .ended (([Event.llmCall, .thought th,
                .action act.tool_name
                  (injectedArgs act (st.history ++ [⟨"assistant", .s (env.llm (st.turn + 1))⟩]))] ++ tevs) ++ evs)
                ret
          | .cont evs st2 =>
              .cont (([Event.llmCall, .thought th,
                .action act.tool_name
                  (injectedArgs act (st.history ++ [⟨"assistant", .s (env.llm (st.turn + 1))⟩]))] ++ tevs) ++ evs)
                st2) := by
  simp only [runIter]
  rw [if_neg (by omega)]
  simp only [hparse]
  rfl

theorem runLoop_ended_completed (env : AgentEnv) (fuel : Nat) (st : LoopSt)
    (evs : List Event) (h2 : List Entry)
    (h : runIter env st = .ended evs (some h2)) :
    runLoop env (fuel + 1) st = ⟨evs, .completed h2⟩ := by
  simp only [runLoop, h]

theorem runLoop_ended_halted (env : AgentEnv) (fuel : Nat) (st : LoopSt)
    (evs : List Event)
    (h : runIter env st = .ended evs Option.none) :
    runLoop env (fuel + 1) st = ⟨evs, .halted⟩ := by
  simp only [runLoop, h]

/-! ## Claims -/

/-- Claim C3: at the top of every loop iteration with `max_turns = 150`,
if the incremented turn counter exceeds 150 the task ends with
`success = false` and the distinct turn-limit message, regardless of
the consecutive-error counter, and the loop halts. -/
theorem claim_C3_turn_limit (env : AgentEnv) (st : LoopSt) (h : 150 < st.turn + 1) :
    runIter env st = .ended [.taskEnd false turnLimitMsg] Option.none ∧
    (∀ fuel, runLoop env (fuel + 1) st = ⟨[.taskEnd false turnLimitMsg], .halted⟩) ∧
    taskEnds [Event.taskEnd false turnLimitMsg] = [(false, turnLimitMsg)] ∧
    (∀ em, turnLimitMsg ≠ errBudgetToolMsg em) ∧
    turnLimitMsg ≠ errBudgetNoActionMsg := by
  have hiter : runIter env st = .ended [.taskEnd false turnLimitMsg] Option.none := by
    unfold runIter
    rw [if_pos (by omega)]
  refine ⟨hiter, fun fuel => runLoop_ended_halted env fuel st _ hiter, rfl, ?_, by decide⟩
  intro em hEq
  have h2 : turnLimitMsg.data = (errBudgetToolMsg em).data := congrArg String.data hEq
  rw [errBudgetToolMsg, String.data_append] at h2
  have h3 := congrArg (List.take 13) h2
  rw [List.take_append_of_le_length (by decide)] at h3
  exact absurd h3 (by decide)

/-- Claim C3 witness at a concrete state with the error counter at
zero. -/
theorem claim_C3_turn_limit_witness :
    runIter ⟨[], fun _ => "", fun _ => Option.none⟩ ⟨150, 0, []⟩ =
      .ended [.taskEnd false turnLimitMsg] Option.none ∧
    turnLimitMsg ≠ errBudgetNoActionMsg :=
  ⟨(claim_C3_turn_limit ⟨[], fun _ => "", fun _ => Option.none⟩ ⟨150, 0, []⟩ (by decide)).1,
    (claim_C3_turn_limit ⟨[], fun _ => "", fun _ => Option.none⟩ ⟨150, 0, []⟩ (by decide)).2.2.2.2⟩

/-- A tool that reports failure (`success=false`) while carrying a
completion-signal payload with result string `"R"`. -/
def failCompletionTool : ToolSpec :=
  ⟨fun a => .ok a,
    fun _ => .returns []
      (some ⟨false, .dict [("_is_completion_signal", .bool true), ("result", .str "R")],
        some "boom"⟩)⟩

def envFailCompletion : AgentEnv :=
  ⟨[("done", failCompletionTool)],
    fun _ => "<thinking>x</thinking><done></done>", fun _ => Option.none⟩

/-- Claim C1 counterexample: every dispatch in this run returns an
`ExecutionResult` whose data is a dict with `_is_completion_signal`
set to `True` and result string `"R"`, yet — because the result also
has `success=false` — the loop takes the error branch: the run ends
with the five-errors failure, never emits `TaskEnd(success=true, "R")`
and returns no history. -/
theorem claim_C1_cex :
    taskEnds (execute_task envFailCompletion "go" []).events =
      [(false, errBudgetToolMsg "boom")] ∧
    (true, "R") ∉ taskEnds (execute_task envFailCompletion "go" []).events ∧
    (execute_task envFailCompletion "go" []).outcome = .halted := by
  refine ⟨rfl, ?_, rfl⟩
  decide

/-- Claim C1 (amended: the dispatch outcome must also have
`success=true`): such an outcome makes the loop emit the completion
observation followed by `TaskEnd(success=true)` whose final message is
the result string, return the conversation history, and perform no
further model calls or tool dispatches. -/
theorem claim_C1_completion (env : AgentEnv) (st : LoopSt) (th : String)
    (act : ParsedAction) (tevs : List Event) (er : ExecResult) (R : String)
    (hturn : st.turn + 1 ≤ 150)
    (hparse : parseResponse (env.llm (st.turn + 1)) (knownTools env) = ⟨th, some act⟩)
    (hcall : call_tool env.tools act.tool_name
      (injectedArgs act (st.history ++ [⟨"assistant", .s (env.llm (st.turn + 1))⟩])) =
        .ok tevs (some er))
    (hsucc : er.success = true)
    (hsig : isCompletionSignal er.data = true)
    (hres : er.data.get "result" = some (.str R)) :
    ∃ evs,
      runIter env st =
        .ended evs (some (st.history ++ [⟨"assistant", .s (env.llm (st.turn + 1))⟩])) ∧
      taskEnds evs = taskEnds tevs ++ [(true, R)] ∧
      (∀ fuel, runLoop env (fuel + 1) st =
        ⟨evs, .completed (st.history ++ [⟨"assistant", .s (env.llm (st.turn + 1))⟩])⟩) := by
  have hiter : runIter env st =
      .ended (([Event.llmCall, .thought th,
          .action act.tool_name
            (injectedArgs act (st.history ++ [⟨"assistant", .s (env.llm (st.turn + 1))⟩]))] ++ tevs) ++
        [.observation "Task completion signaled." false, .taskEnd true R])
        (some (st.history ++ [⟨"assistant", .s (env.llm (st.turn + 1))⟩])) := by
    have hobs := observe_completion (st.turn + 1) st.errs
      (st.history ++ [⟨"assistant", .s (env.llm (st.turn + 1))⟩])
      act.tool_name env.resume er hsucc hsig R hres
    rw [runIter_dispatch env st th act hturn hparse]
    simp only [hcall, hobs]
  refine ⟨_, hiter, ?_, fun fuel => runLoop_ended_completed env fuel st _ _ hiter⟩
  simp [taskEnds, List.filterMap_append]

/-- A tool whose validation succeeds and whose `run` body raises. -/
def raisingTool : ToolSpec := ⟨fun a => .ok a, fun _ => .raises [] "boom"⟩

/-- Claim C6 (code bug): `call_tool` wraps an exception raised during
the tool's own execution — not only a schema-validation failure — in
`ToolArgumentValidationError`, because one `try` spans both steps; a
`success=false` result, by contrast, is returned as the execution
result.  The claim (and the spec's error taxonomy) say an execution
raise must surface as a tool-execution failure distinct from the
validation error. -/
theorem claim_C6_call_tool (tools : List (String × ToolSpec)) (name : String)
    (t : ToolSpec) (args va : List (String × ArgVal))
    (hfind : (tools.find? (fun p => p.1 = name)).map Prod.snd = some t)
    (hval : t.validate args = .ok va) :
    (∀ evs e, t.run va = .raises evs e →
      call_tool tools name args =
        .argError evs ("Error validating arguments for tool \x27" ++ name ++ "\x27: " ++ e)) ∧
    (∀ evs r, t.run va = .returns evs r → call_tool tools name args = .ok evs r) ∧
    call_tool [("t", raisingTool)] "t" [] =
      .argError [] "Error validating arguments for tool \x27t\x27: boom" := by
  refine ⟨?_, ?_, rfl⟩
  · intro evs e hrun
    unfold call_tool
    simp only [hfind, hval, hrun]
  · intro evs r hrun
    unfold call_tool
    simp only [hfind, hval, hrun]

/-- Claim C6 witness: a registered tool with passing validation whose
execution raises is reported as a `ToolArgumentValidationError`. -/
theorem claim_C6_call_tool_witness :
    call_tool [("t", raisingTool)] "t" [] =
      .argError [] "Error validating arguments for tool \x27t\x27: boom" :=
  (claim_C6_call_tool [("t", raisingTool)] "t" raisingTool [] [] rfl rfl).1 [] "boom" rfl

/-- A tool whose schema validation always fails. -/
def badArgsTool : ToolSpec := ⟨fun _ => .error "bad args", fun _ => .returns [] Option.none⟩

def envBadArgs : AgentEnv :=
  ⟨[("t", badArgsTool)], fun _ => "<thinking>x</thinking><t></t>", fun _ => Option.none⟩

/-- The progress events already forwarded by the dispatcher when it
returned or raised. -/
def callEvents : CallRes → List Event
  | .notFound => []
  | .argError tevs _ => tevs
  | .ok tevs _ => tevs

/-- Claim C7 (code bug): an unregistered tool name makes the
dispatcher raise `ToolNotFoundError`, and the loop does NOT turn a
dispatcher raise into a tool-failure observation: the raise reaches
the blanket `except`, which prints and falls off the end, so the
generator terminates with no `TaskEnd` event of its own — the loop
can terminate silently, contradicting the claim.  The concrete run
(a registered tool whose argument validation raises) exhibits a full
`execute_task` run that ends with no terminal event at all. -/
theorem claim_C7_unregistered_tool (env : AgentEnv) (st : LoopSt) (th : String)
    (act : ParsedAction)
    (hturn : st.turn + 1 ≤ 150)
    (hparse : parseResponse (env.llm (st.turn + 1)) (knownTools env) = ⟨th, some act⟩)
    (hraise : call_tool env.tools act.tool_name
        (injectedArgs act (st.history ++ [⟨"assistant", .s (env.llm (st.turn + 1))⟩])) =
          .notFound ∨
      ∃ tevs msg, call_tool env.tools act.tool_name
        (injectedArgs act (st.history ++ [⟨"assistant", .s (env.llm (st.turn + 1))⟩])) =
          .argError tevs msg) :
    (∀ tools2 name2 args2, (tools2.find? (fun p : String × ToolSpec => p.1 = name2)) = Option.none →
      call_tool tools2 name2 args2 = .notFound) ∧
    (∃ evs, runIter env st = .ended evs Option.none ∧
      taskEnds evs = taskEnds (callEvents (call_tool env.tools act.tool_name
        (injectedArgs act (st.history ++ [⟨"assistant", .s (env.llm (st.turn + 1))⟩]))))) ∧
    taskEnds (execute_task envBadArgs "go" []).events = [] ∧
    (execute_task envBadArgs "go" []).outcome = .halted := by
  refine ⟨?_, ?_, rfl, rfl⟩
  · intro tools2 name2 args2 hnone
    unfold call_tool
    simp only [hnone]
    rfl
  · rcases hraise with hnf | ⟨tevs, msg, harg⟩
    · refine ⟨[Event.llmCall, .thought th,
        .action act.tool_name
          (injectedArgs act (st.history ++ [⟨"assistant", .s (env.llm (st.turn + 1))⟩]))], ?_, ?_⟩
      · rw [runIter_dispatch env st th act hturn hparse]
        simp only [hnf]
      · rw [hnf]
        rfl
    · refine ⟨[Event.llmCall, .thought th,
        .action act.tool_name
          (injectedArgs act (st.history ++ [⟨"assistant", .s (env.llm (st.turn + 1))⟩]))] ++ tevs, ?_, ?_⟩
      · rw [runIter_dispatch env st th act hturn hparse]
        simp only [harg]
      · rw [harg]
        simp [taskEnds, callEvents, List.filterMap_append]

/-- Claim C7 witness: in the concrete run the dispatcher raise (here a
validation error) ends the run with no terminal event. -/
theorem claim_C7_unregistered_tool_witness :
    (∃ evs, runIter envBadArgs ⟨0, 0, []⟩ = .ended evs Option.none ∧
      taskEnds evs = taskEnds (callEvents (call_tool envBadArgs.tools "t"
        (injectedArgs ⟨"t", []⟩ ([] ++ [⟨"assistant", .s (envBadArgs.llm 1)⟩]))))) ∧
    taskEnds (execute_task envBadArgs "go" []).events = [] := by
  have h := claim_C7_unregistered_tool envBadArgs ⟨0, 0, []⟩ "x" ⟨"t", []⟩ (by decide) rfl
    (Or.inr ⟨[], "Error validating arguments for tool \x27t\x27: bad args", rfl⟩)
  exact ⟨h.2.1, h.2.2.1⟩

/-- A tool that returns a successful completion signal with result
string `"R"`. -/
def okCompletionTool : ToolSpec :=
  ⟨fun a => .ok a,
    fun _ => .returns []
      (some ⟨true, .dict [("_is_completion_signal", .bool true), ("result", .str "R")],
        Option.none⟩)⟩

def envOkCompletion : AgentEnv :=
  ⟨[("done", okCompletionTool)],
    fun _ => "<thinking>x</thinking><done></done>", fun _ => Option.none⟩

/-- Claim C1 witness: a successful completion signal with result `"R"`
ends the run with exactly `TaskEnd(success=true, "R")`. -/
theorem claim_C1_completion_witness :
    taskEnds (execute_task envOkCompletion "go" []).events = [(true, "R")] := by
  obtain ⟨evs, h1, h2, h3⟩ := claim_C1_completion envOkCompletion
    ⟨0, 0, [⟨"user", .s "go"⟩]⟩ "x" ⟨"done", []⟩ []
    ⟨true, .dict [("_is_completion_signal", .bool true), ("result", .str "R")], Option.none⟩
    "R" (by decide) rfl rfl rfl rfl rfl
  have he : execute_task envOkCompletion "go" [] =
      ⟨Event.taskStart :: (runLoop envOkCompletion 151 ⟨0, 0, [⟨"user", .s "go"⟩]⟩).events,
        (runLoop envOkCompletion 151 ⟨0, 0, [⟨"user", .s "go"⟩]⟩).outcome⟩ := rfl
  have h4 : runLoop envOkCompletion 151 ⟨0, 0, [⟨"user", .s "go"⟩]⟩ =
      ⟨evs, .completed ([⟨"user", .s "go"⟩] ++
        [⟨"assistant", .s (envOkCompletion.llm (0 + 1))⟩])⟩ := h3 150
  rw [he, h4]
  show taskEnds (Event.taskStart :: evs) = [(true, "R")]
  have h5 : taskEnds (Event.taskStart :: evs) = taskEnds evs := rfl
  rw [h5, h2]
  rfl

/-- A tool that always fails with error text `"boom"`. -/
def alwaysFailTool : ToolSpec :=
  ⟨fun a => .ok a, fun _ => .returns [] (some ⟨false, .none, some "boom"⟩)⟩

/-- A tool that always succeeds with a plain string payload. -/
def alwaysOkTool : ToolSpec :=
  ⟨fun a => .ok a, fun _ => .returns [] (some ⟨true, .str "ok", Option.none⟩)⟩

def envFiveFails : AgentEnv :=
  ⟨[("f", alwaysFailTool)], fun _ => "<thinking>x</thinking><f></f>", fun _ => Option.none⟩

def envFourThenOk : AgentEnv :=
  ⟨[("f", alwaysFailTool), ("g", alwaysOkTool)],
    fun t => if t ≤ 4 then "<thinking>x</thinking><f></f>" else "<thinking>x</thinking><g></g>",
    fun _ => Option.none⟩

def envNoAct : AgentEnv := ⟨[], fun _ => "no action", fun _ => Option.none⟩

/-- The error counter after an iteration that continued. -/
def contErrs : IterOut → Option Nat
  | .cont _ st => some st.errs
  | _ => Option.none

/-- The `TaskEnd` events of an iteration that returned. -/
def endedTaskEnds : IterOut → Option (List (Bool × String))
  | .ended evs _ => some (taskEnds evs)
  | _ => Option.none

/-- Claim C2: with `max_consecutive_errors = 5`, the error counter
increments by one on a parse failure and on a tool failure, resets to
zero on a successful non-error observation, the fifth consecutive
tool failure ends the task with `success=false` and a message stating
the error count, a concrete run of five consecutive tool failures
ends exactly so after five model calls, and four failures followed by
one success leave the loop running with the counter back at zero and
no terminal event. -/
theorem claim_C2_error_budget :
    (∀ env st, st.turn + 1 ≤ 150 →
      (parseResponse (env.llm (st.turn + 1)) (knownTools env)).action = Option.none →
      st.errs + 1 < 5 →
      ∃ evs h2, runIter env st = .cont evs ⟨st.turn + 1, st.errs + 1, h2⟩) ∧
    (∀ env st th act tevs r, st.turn + 1 ≤ 150 →
      parseResponse (env.llm (st.turn + 1)) (knownTools env) = ⟨th, some act⟩ →
      call_tool env.tools act.tool_name
        (injectedArgs act (st.history ++ [⟨"assistant", .s (env.llm (st.turn + 1))⟩])) =
          .ok tevs r →
      isErrOf r = true → st.errs + 1 < 5 →
      ∃ evs h2, runIter env st = .cont evs ⟨st.turn + 1, st.errs + 1, h2⟩) ∧
    (∀ env st th act tevs er, st.turn + 1 ≤ 150 →
      parseResponse (env.llm (st.turn + 1)) (knownTools env) = ⟨th, some act⟩ →
      call_tool env.tools act.tool_name
        (injectedArgs act (st.history ++ [⟨"assistant", .s (env.llm (st.turn + 1))⟩])) =
          .ok tevs (some er) →
      er.success = true → isCompletionSignal er.data = false →
      ∃ evs h2, runIter env st = .cont evs ⟨st.turn + 1, 0, h2⟩) ∧
    (∀ env st th act tevs r, st.turn + 1 ≤ 150 →
      parseResponse (env.llm (st.turn + 1)) (knownTools env) = ⟨th, some act⟩ →
      call_tool env.tools act.tool_name
        (injectedArgs act (st.history ++ [⟨"assistant", .s (env.llm (st.turn + 1))⟩])) =
          .ok tevs r →
      isErrOf r = true → 5 ≤ st.errs + 1 →
      ∃ evs, runIter env st = .ended evs Option.none ∧
        taskEnds evs = taskEnds tevs ++ [(false, errBudgetToolMsg (fatalEm r))]) ∧
    (taskEnds (execute_task envFiveFails "go" []).events =
        [(false, errBudgetToolMsg "boom")] ∧
      (execute_task envFiveFails "go" []).outcome = .halted ∧
      countLlmCalls (execute_task envFiveFails "go" []).events = 5) ∧
    (taskEnds (runLoop envFourThenOk 5 ⟨0, 0, [⟨"user", .s "go"⟩]⟩).events = [] ∧
      fuelOutErrs (runLoop envFourThenOk 5 ⟨0, 0, [⟨"user", .s "go"⟩]⟩).outcome = some 0) := by
  refine ⟨?_, ?_, ?_, ?_, ⟨rfl, rfl, rfl⟩, ⟨rfl, rfl⟩⟩
  · intro env st hturn hparse hlt
    exact ⟨_, _, runIter_parse_fail env st hturn hparse hlt⟩
  · intro env st th act tevs r hturn hparse hcall hfail hlt
    have hobs := observe_tool_fail (st.turn + 1) st.errs
      (st.history ++ [⟨"assistant", .s (env.llm (st.turn + 1))⟩])
      act.tool_name env.resume r hfail hlt
    have hiter : runIter env st = .cont
        (([Event.llmCall, .thought th,
          .action act.tool_name
            (injectedArgs act (st.history ++ [⟨"assistant", .s (env.llm (st.turn + 1))⟩]))] ++ tevs) ++
          [.observation (toolFailObs act.tool_name (toolFailEm r)) true])
        ⟨st.turn + 1, st.errs + 1,
          (st.history ++ [⟨"assistant", .s (env.llm (st.turn + 1))⟩]) ++
            [toolResultEntry act.tool_name (toolFailObs act.tool_name (toolFailEm r))]⟩ := by
      rw [runIter_dispatch env st th act hturn hparse]
      simp only [hcall, hobs]
    exact ⟨_, _, hiter⟩
  · intro env st th act tevs er hturn hparse hcall hsucc hsig
    obtain ⟨evs, h2, hobs⟩ := observe_success_resets (st.turn + 1) st.errs
      (st.history ++ [⟨"assistant", .s (env.llm (st.turn + 1))⟩])
      act.tool_name env.resume er hsucc hsig
    have hiter : runIter env st = .cont
        (([Event.llmCall, .thought th,
          .action act.tool_name
            (injectedArgs act (st.history ++ [⟨"assistant", .s (env.llm (st.turn + 1))⟩]))] ++ tevs) ++ evs)
        ⟨st.turn + 1, 0, h2⟩ := by
      rw [runIter_dispatch env st th act hturn hparse]
      simp only [hcall, hobs]
    exact ⟨_, _, hiter⟩
  · intro env st th act tevs r hturn hparse hcall hfail hge
    have hobs := observe_tool_fail_fatal (st.turn + 1) st.errs
      (st.history ++ [⟨"assistant", .s (env.llm (st.turn + 1))⟩])
      act.tool_name env.resume r hfail hge
    have hiter : runIter env st = .ended
        (([Event.llmCall, .thought th,
          .action act.tool_name
            (injectedArgs act (st.history ++ [⟨"assistant", .s (env.llm (st.turn + 1))⟩]))] ++ tevs) ++
          [.taskEnd false (errBudgetToolMsg (fatalEm r))])
        Option.none := by
      rw [runIter_dispatch env st th act hturn hparse]
      simp only [hcall, hobs]
    refine ⟨_, hiter, ?_⟩
    simp [taskEnds, List.filterMap_append]

/-- Claim C2 witness: the four conditional parts instantiated on
concrete runs — a parse failure and a tool failure increment the
counter from 0 to 1, a success after four failures resets it to 0,
and a fifth consecutive failure ends the task with the
five-errors message. -/
theorem claim_C2_error_budget_witness :
    contErrs (runIter envNoAct ⟨0, 0, []⟩) = some 1 ∧
    contErrs (runIter envFiveFails ⟨0, 0, []⟩) = some 1 ∧
    contErrs (runIter envFourThenOk ⟨4, 4, []⟩) = some 0 ∧
    endedTaskEnds (runIter envFiveFails ⟨0, 4, []⟩) =
      some [(false, errBudgetToolMsg "boom")] := by
  refine ⟨?_, ?_, ?_, ?_⟩
  · obtain ⟨evs, h2, he⟩ := claim_C2_error_budget.1 envNoAct ⟨0, 0, []⟩
      (by decide) rfl (by decide)
    rw [he]
    rfl
  · obtain ⟨evs, h2, he⟩ := claim_C2_error_budget.2.1 envFiveFails ⟨0, 0, []⟩
      "x" ⟨"f", []⟩ [] (some ⟨false, .none, some "boom"⟩)
      (by decide) rfl rfl rfl (by decide)
    rw [he]
    rfl
  · obtain ⟨evs, h2, he⟩ := claim_C2_error_budget.2.2.1 envFourThenOk ⟨4, 4, []⟩
      "x" ⟨"g", []⟩ [] ⟨true, .str "ok", Option.none⟩
      (by decide) rfl rfl rfl rfl
    rw [he]
    rfl
  · obtain ⟨evs, he, ht⟩ := claim_C2_error_budget.2.2.2.1 envFiveFails ⟨0, 4, []⟩
      "x" ⟨"f", []⟩ [] (some ⟨false, .none, some "boom"⟩)
      (by decide) rfl rfl rfl (by decide)
    rw [he]
    simp only [endedTaskEnds, ht]
    rfl

/-- Claim C5 counterexample: a parsed invocation whose `options` value
normalizes to the empty sequence keeps the field PRESENT as an empty
list — the claim says the field must be absent in that case. -/
theorem claim_C5_cex :
    (parseResponse "<thinking>t</thinking><ask_user><options></options></ask_user>"
        ["ask_user"]).action =
      some ⟨"ask_user", [("options", ArgVal.l [])]⟩ ∧
    ((parseResponse "<thinking>t</thinking><ask_user><options></options></ask_user>"
        ["ask_user"]).action.map
      (fun a => a.arguments.any (fun p => p.1 = "options"))) = some true := by
  exact ⟨rfl, rfl⟩

/-- Claim C5 (amended: an `options` value whose normalization is
empty is kept as a present, empty sequence rather than dropped): a
JSON-array value becomes that array, any other value is split on
commas with each piece trimmed and empty pieces dropped, the two spec
examples hold, and the empty value yields a present empty list. -/
theorem claim_C5_options (v : List Char) :
    (∀ xs, jsonLoads (strip v) = some (.list xs) → normalizeOptions v = .l xs) ∧
    (jsonLoads (strip v) = Option.none → normalizeOptions v = .l (splitTrim v)) ∧
    normalizeOptions "[\"A\",\"B\"]".toList = .l [.str "A", .str "B"] ∧
    normalizeOptions "A, B ,".toList = .l [.str "A", .str "B"] ∧
    (parseResponse "<thinking>t</thinking><ask_user><options></options></ask_user>"
        ["ask_user"]).action =
      some ⟨"ask_user", [("options", ArgVal.l [])]⟩ := by
  refine ⟨?_, ?_, rfl, rfl, rfl⟩
  · intro xs h
    unfold normalizeOptions
    rw [h]
  · intro h
    unfold normalizeOptions splitTrim
    rw [h]

/-- Claim C5 witness: the JSON-array and comma-split branches at
concrete values. -/
theorem claim_C5_options_witness :
    normalizeOptions "[\"X\"]".toList = .l [.str "X"] ∧
    normalizeOptions "x, y".toList = .l (splitTrim "x, y".toList) :=
  ⟨(claim_C5_options "[\"X\"]".toList).1 [.str "X"] rfl,
    (claim_C5_options "x, y".toList).2.1 rfl⟩

/-- Claim C10: when the `options` value parses as JSON that is not an
array, the parser keeps a one-element sequence holding the string
form of the parsed value; comma-splitting happens only when JSON
parsing fails, so a JSON string containing commas is not split. -/
theorem claim_C10_options_scalar (v : List Char) :
    (∀ j, jsonLoads (strip v) = some j → (∀ xs, j ≠ .list xs) →
      normalizeOptions v = .l [.str (pyStr j)]) ∧
    (∀ s, jsonLoads (strip v) = some (.str s) → normalizeOptions v = .l [.str s]) ∧
    normalizeOptions "\"A, B\"".toList = .l [.str "A, B"] ∧
    normalizeOptions "5".toList = .l [.str "5"] ∧
    (jsonLoads (strip v) = Option.none → normalizeOptions v = .l (splitTrim v)) := by
  refine ⟨?_, ?_, rfl, rfl, ?_⟩
  · intro j h hj
    unfold normalizeOptions
    rw [h]
    cases j with
    | list xs => exact absurd rfl (hj xs)
    | none => rfl
    | bool b => rfl
    | int n => rfl
    | str s => rfl
    | dict l => rfl
  · intro s h
    unfold normalizeOptions
    rw [h]
    rfl
  · intro h
    unfold normalizeOptions splitTrim
    rw [h]

/-- Claim C10 witness: a JSON number and a JSON string with commas. -/
theorem claim_C10_options_scalar_witness :
    normalizeOptions "7".toList = .l [.str (pyStr (.int 7))] ∧
    normalizeOptions "\"p, q\"".toList = .l [.str "p, q"] :=
  ⟨(claim_C10_options_scalar "7".toList).1 (.int 7) rfl (fun xs h => by cases h),
    (claim_C10_options_scalar "\"p, q\"".toList).2.1 "p, q" rfl⟩

theorem splitGo_flatten (cost : IndexItem → Nat) :
    ∀ (items : List IndexItem) (cur : List IndexItem) (tok : Nat),
      (splitChunksGo cost items cur tok).flatten = cur ++ items.map toItemDict := by
  intro items
  induction items with
  | nil =>
    intro cur tok
    by_cases h : cur.isEmpty
    · rw [List.isEmpty_iff] at h
      simp [splitChunksGo, h]
    · simp [splitChunksGo, h]
  | cons it rest ih =>
    intro cur tok
    simp only [splitChunksGo]
    split
    · simp [ih, toItemDict]
    · simp [ih, toItemDict]

theorem chunk_prop_of_ne_nil (cost : IndexItem → Nat) (c : List IndexItem)
    (hne : c ≠ []) (hbig : 2 ≤ c.length → (c.map cost).sum ≤ MAX_TOKENS_PER_CHUNK) :
    c ≠ [] ∧ ((c.map cost).sum ≤ MAX_TOKENS_PER_CHUNK ∨
      ∃ d, c = [d] ∧ MAX_TOKENS_PER_CHUNK < cost d) := by
  refine ⟨hne, ?_⟩
  match c, hne with
  | [d], _ =>
    by_cases hd : cost d ≤ MAX_TOKENS_PER_CHUNK
    · left; simpa using hd
    · right; exact ⟨d, rfl, by omega⟩
  | d :: d2 :: t, _ =>
    left
    exact hbig (by simp)

theorem splitGo_bound (cost : IndexItem → Nat) :
    ∀ (items : List IndexItem) (cur : List IndexItem) (tok : Nat),
      tok = (cur.map cost).sum →
      (2 ≤ cur.length → tok ≤ MAX_TOKENS_PER_CHUNK) →
      ∀ c ∈ splitChunksGo cost items cur tok,
        c ≠ [] ∧ ((c.map cost).sum ≤ MAX_TOKENS_PER_CHUNK ∨
          ∃ d, c = [d] ∧ MAX_TOKENS_PER_CHUNK < cost d) := by
  intro items
  induction items with
  | nil =>
    intro cur tok hsum hbound c hc
    cases hemp : cur.isEmpty with
    | true =>
      simp [splitChunksGo, hemp] at hc
    | false =>
      simp only [splitChunksGo, hemp, Bool.false_eq_true, if_false, List.mem_singleton] at hc
      subst hc
      exact chunk_prop_of_ne_nil cost c (List.isEmpty_eq_false.mp hemp)
        (fun h2 => hsum ▸ hbound h2)
  | cons it rest ih =>
    intro cur tok hsum hbound c hc
    simp only [splitChunksGo] at hc
    by_cases hcond : (decide (MAX_TOKENS_PER_CHUNK < tok + cost (toItemDict it)) &&
        !cur.isEmpty) = true
    · rw [if_pos hcond] at hc
      simp only [Bool.and_eq_true, Bool.not_eq_true', decide_eq_true_iff] at hcond
      rcases List.mem_cons.mp hc with hceq | hcrec
      · subst hceq
        exact chunk_prop_of_ne_nil cost c (List.isEmpty_eq_false.mp hcond.2)
          (fun h2 => hsum ▸ hbound h2)
      · exact ih [toItemDict it] (cost (toItemDict it)) (by simp) (by simp) c hcrec
    · rw [if_neg hcond] at hc
      refine ih (cur ++ [toItemDict it]) (tok + cost (toItemDict it)) ?_ ?_ c hc
      · simp [hsum]
      · intro hlen
        rw [List.length_append, List.length_singleton] at hlen
        have hne : cur ≠ [] := by
          intro h0
          subst h0
          simp at hlen
        have hf : cur.isEmpty = false := List.isEmpty_eq_false.mpr hne
        by_contra hgt
        push_neg at hgt
        exact hcond (by simp [hf, hgt])

/-- Claim C9: for every token-cost measure and item list, chunking
with the 128000-token budget yields only nonempty chunks, no chunk's
cumulative cost exceeds the budget except a single-item chunk whose
own cost does, and the concatenation of all chunks is exactly the
serialized input (every item in exactly one chunk, none dropped). -/
theorem claim_C9_chunking (cost : IndexItem → Nat) (items : List IndexItem) :
    (∀ c ∈ splitIndexIntoChunks cost items,
      c ≠ [] ∧ ((c.map cost).sum ≤ MAX_TOKENS_PER_CHUNK ∨
        ∃ d, c = [d] ∧ MAX_TOKENS_PER_CHUNK < cost d)) ∧
    (splitIndexIntoChunks cost items).flatten = items.map toItemDict := by
  constructor
  · intro c hc
    exact splitGo_bound cost items [] 0 rfl (by simp) c hc
  · exact splitGo_flatten cost items [] 0

/-- Claim C9 witness: two items of cost 130000 each form two
singleton oversized chunks covering the whole input, and the first
chunk satisfies the oversized-singleton exception. -/
theorem claim_C9_chunking_witness :
    ((splitIndexIntoChunks (fun _ => 130000) [⟨"a", "s", []⟩, ⟨"b", "s", []⟩]).flatten =
      [⟨"a", "s", []⟩, ⟨"b", "s", []⟩].map toItemDict) ∧
    ([⟨"a", "s", []⟩] ≠ ([] : List IndexItem) ∧
      ((([⟨"a", "s", []⟩] : List IndexItem).map (fun _ => 130000)).sum ≤ MAX_TOKENS_PER_CHUNK ∨
        ∃ d, [(⟨"a", "s", []⟩ : IndexItem)] = [d] ∧ MAX_TOKENS_PER_CHUNK < (fun _ => 130000) d)) :=
  ⟨(claim_C9_chunking (fun _ => 130000) [⟨"a", "s", []⟩, ⟨"b", "s", []⟩]).2,
    (claim_C9_chunking (fun _ => 130000) [⟨"a", "s", []⟩, ⟨"b", "s", []⟩]).1
      [⟨"a", "s", []⟩] (List.Mem.head _)⟩

theorem insertDesc_perm (c : Cand) (l : List Cand) : List.Perm (insertDesc c l) (c :: l) := by
  induction l with
  | nil => rfl
  | cons d t ih =>
    unfold insertDesc
    by_cases h : d.score ≤ c.score
    · rw [if_pos h]
    · rw [if_neg h]
      exact (ih.cons d).trans (List.Perm.swap c d t)

theorem sortDesc_perm (l : List Cand) : List.Perm (sortDesc l) l := by
  induction l with
  | nil => rfl
  | cons c t ih => exact (insertDesc_perm c (sortDesc t)).trans (ih.cons c)

theorem mem_insertDesc {a c : Cand} {l : List Cand} :
    a ∈ insertDesc c l ↔ a = c ∨ a ∈ l := by
  rw [(insertDesc_perm c l).mem_iff, List.mem_cons]

theorem insertDesc_sorted (c : Cand) (l : List Cand)
    (h : l.Pairwise (fun a b => b.score ≤ a.score)) :
    (insertDesc c l).Pairwise (fun a b => b.score ≤ a.score) := by
  induction l with
  | nil => simp [insertDesc]
  | cons d t ih =>
    rw [List.pairwise_cons] at h
    unfold insertDesc
    by_cases hc : d.score ≤ c.score
    · rw [if_pos hc]
      refine List.Pairwise.cons ?_ (List.Pairwise.cons h.1 h.2)
      intro b hb
      rcases List.mem_cons.mp hb with hb | hb
      · subst hb; exact hc
      · exact le_trans (h.1 b hb) hc
    · rw [if_neg hc]
      refine List.Pairwise.cons ?_ (ih h.2)
      intro b hb
      rcases mem_insertDesc.mp hb with hb | hb
      · subst hb; omega
      · exact h.1 b hb

theorem sortDesc_sorted (l : List Cand) :
    (sortDesc l).Pairwise (fun a b => b.score ≤ a.score) := by
  induction l with
  | nil => simp [sortDesc]
  | cons c t ih => exact insertDesc_sorted c (sortDesc t) ih

theorem insertDesc_filter (c : Cand) (l : List Cand) (s : Int) :
    (insertDesc c l).filter (fun x => x.score = s) =
      if c.score = s then c :: l.filter (fun x => x.score = s)
      else l.filter (fun x => x.score = s) := by
  induction l with
  | nil =>
    by_cases hc : c.score = s <;> simp [insertDesc, List.filter, hc]
  | cons d t ih =>
    unfold insertDesc
    by_cases hle : d.score ≤ c.score
    · rw [if_pos hle]
      by_cases hc : c.score = s <;> simp [List.filter_cons, hc]
    · rw [if_neg hle]
      by_cases hc : c.score = s <;> by_cases hd : d.score = s
      · omega
      · simp [List.filter_cons, hc, hd, ih]
      · simp [List.filter_cons, hc, hd, ih]
      · simp [List.filter_cons, hc, hd, ih]

theorem sortDesc_filter (l : List Cand) (s : Int) :
    (sortDesc l).filter (fun x => x.score = s) = l.filter (fun x => x.score = s) := by
  induction l with
  | nil => rfl
  | cons c t ih =>
    unfold sortDesc
    rw [insertDesc_filter]
    by_cases hc : c.score = s <;> simp [List.filter_cons, hc, ih]

/-- A candidate whose `file_path` is truthy (present and nonempty):
only these survive the merge. -/
def validCand (c : Cand) : Prop := ∃ p, c.file_path = some p ∧ p ≠ ""

theorem updateBest_valid_nodup (acc : List Cand) (x : Cand)
    (hval : ∀ c ∈ acc, validCand c)
    (hnodup : (acc.map Cand.file_path).Nodup) :
    (∀ c ∈ updateBest acc x, validCand c) ∧
      ((updateBest acc x).map Cand.file_path).Nodup := by
  match hx : x.file_path with
  | Option.none =>
    simp only [updateBest, hx]
    exact ⟨hval, hnodup⟩
  | some p =>
    simp only [updateBest, hx]
    by_cases hp : p = ""
    · rw [if_pos hp]
      exact ⟨hval, hnodup⟩
    · rw [if_neg hp]
      match hfind : acc.find? (fun d => d.file_path = some p) with
      | Option.none =>
        simp only [hfind]
        constructor
        · intro c hc
          rcases List.mem_append.mp hc with hc | hc
          · exact hval c hc
          · rw [List.mem_singleton] at hc
            subst hc
            exact ⟨p, hx, hp⟩
        · rw [List.map_append, List.nodup_append]
          refine ⟨hnodup, List.nodup_singleton _, ?_⟩
          intro q hq hq2
          simp only [List.map_cons, List.map_nil, List.mem_singleton] at hq2
          rcases List.mem_map.mp hq with ⟨d, hd, hdq⟩
          have := List.find?_eq_none.mp hfind d hd
          rw [decide_eq_true_iff] at this
          exact this (by rw [hdq, hq2, hx])
      | some d =>
        simp only [hfind]
        by_cases hlt : d.score < x.score
        · rw [if_pos hlt]
          constructor
          · intro c hc
            rcases List.mem_map.mp hc with ⟨d2, hd2, hdc⟩
            by_cases h2 : d2.file_path = some p
            · rw [if_pos h2] at hdc
              subst hdc
              exact ⟨p, hx, hp⟩
            · rw [if_neg h2] at hdc
              subst hdc
              exact hval d2 hd2
          · have hmaps : (acc.map (fun d2 => if d2.file_path = some p then x else d2)).map
                Cand.file_path = acc.map Cand.file_path := by
              rw [List.map_map]
              refine List.map_congr_left ?_
              intro d2 _
              by_cases h2 : d2.file_path = some p
              · simp only [Function.comp_apply]
                rw [if_pos h2, hx, h2]
              · simp only [Function.comp_apply]
                rw [if_neg h2]
            rw [hmaps]
            exact hnodup
        · rw [if_neg hlt]
          exact ⟨hval, hnodup⟩

theorem updateBest_dominates (acc : List Cand) (x : Cand)
    (hval : ∀ c ∈ acc, validCand c)
    (hnodup : (acc.map Cand.file_path).Nodup) :
    ∀ c ∈ updateBest acc x, x.file_path = c.file_path → x.score ≤ c.score := by
  match hx : x.file_path with
  | Option.none =>
    simp only [updateBest, hx]
    intro c hc heq
    rcases hval c hc with ⟨q, hq, _⟩
    rw [hq] at heq
    cases heq
  | some p =>
    simp only [updateBest, hx]
    by_cases hp : p = ""
    · rw [if_pos hp]
      intro c hc heq
      rcases hval c hc with ⟨q, hq, hq2⟩
      rw [hq] at heq
      injection heq with h3
      exact (hq2 (by rw [← h3]; exact hp)).elim
    · rw [if_neg hp]
      match hfind : acc.find? (fun d => d.file_path = some p) with
      | Option.none =>
        simp only [hfind]
        intro c hc heq
        rcases List.mem_append.mp hc with hc | hc
        · have := List.find?_eq_none.mp hfind c hc
          rw [decide_eq_true_iff] at this
          exact absurd heq.symm this
        · rw [List.mem_singleton] at hc
          subst hc
          exact le_refl _
      | some d =>
        simp only [hfind]
        have hdmem := List.mem_of_find?_eq_some hfind
        have hdpath : d.file_path = some p := by
          have := List.find?_some hfind
          rwa [decide_eq_true_iff] at this
        by_cases hlt : d.score < x.score
        · rw [if_pos hlt]
          intro c hc heq
          rcases List.mem_map.mp hc with ⟨d2, hd2, hdc⟩
          by_cases h2 : d2.file_path = some p
          · rw [if_pos h2] at hdc
            subst hdc
            exact le_refl _
          · rw [if_neg h2] at hdc
            subst hdc
            exact absurd heq.symm h2
        · rw [if_neg hlt]
          intro c hc heq
          have hcpath : c.file_path = some p := heq.symm
          have hceq : c = d :=
            List.inj_on_of_nodup_map hnodup hc hdmem (by rw [hcpath, hdpath])
          subst hceq
          omega

theorem updateBest_presence (acc : List Cand) (x : Cand) (p : String)
    (hx : x.file_path = some p) (hp : p ≠ "") :
    ∃ c ∈ updateBest acc x, c.file_path = x.file_path := by
  simp only [updateBest, hx]
  rw [if_neg hp]
  match hfind : acc.find? (fun d => d.file_path = some p) with
  | Option.none =>
    simp only [hfind]
    exact ⟨x, List.mem_append.mpr (Or.inr (List.mem_singleton.mpr rfl)), hx⟩
  | some d =>
    simp only [hfind]
    have hdmem := List.mem_of_find?_eq_some hfind
    have hdpath : d.file_path = some p := by
      have := List.find?_some hfind
      rwa [decide_eq_true_iff] at this
    by_cases hlt : d.score < x.score
    · rw [if_pos hlt]
      exact ⟨x, List.mem_map.mpr ⟨d, hdmem, if_pos hdpath⟩, hx⟩
    · rw [if_neg hlt]
      exact ⟨d, hdmem, hdpath⟩

theorem updateBest_mono (acc : List Cand) (x : Cand)
    (hnodup : (acc.map Cand.file_path).Nodup) :
    ∀ c0 ∈ acc, ∃ c2 ∈ updateBest acc x, c2.file_path = c0.file_path ∧ c0.score ≤ c2.score := by
  intro c0 hc0
  match hx : x.file_path with
  | Option.none =>
    simp only [updateBest, hx]
    exact ⟨c0, hc0, rfl, le_refl _⟩
  | some p =>
    simp only [updateBest, hx]
    by_cases hp : p = ""
    · rw [if_pos hp]
      exact ⟨c0, hc0, rfl, le_refl _⟩
    · rw [if_neg hp]
      match hfind : acc.find? (fun d => d.file_path = some p) with
      | Option.none =>
        simp only [hfind]
        exact ⟨c0, List.mem_append.mpr (Or.inl hc0), rfl, le_refl _⟩
      | some d =>
        simp only [hfind]
        have hdmem := List.mem_of_find?_eq_some hfind
        have hdpath : d.file_path = some p := by
          have := List.find?_some hfind
          rwa [decide_eq_true_iff] at this
        by_cases hlt : d.score < x.score
        · rw [if_pos hlt]
          by_cases h0 : c0.file_path = some p
          · have hceq : c0 = d :=
              List.inj_on_of_nodup_map hnodup hc0 hdmem (by rw [h0, hdpath])
            exact ⟨x, List.mem_map.mpr ⟨d, hdmem, if_pos hdpath⟩, by rw [hx, h0],
              by rw [hceq]; omega⟩
          · exact ⟨c0, List.mem_map.mpr ⟨c0, hc0, if_neg h0⟩, rfl, le_refl _⟩
        · rw [if_neg hlt]
          exact ⟨c0, hc0, rfl, le_refl _⟩

theorem foldl_valid_nodup :
    ∀ (l : List Cand) (acc : List Cand),
      (∀ c ∈ acc, validCand c) → ((acc.map Cand.file_path).Nodup) →
      (∀ c ∈ l.foldl updateBest acc, validCand c) ∧
        (((l.foldl updateBest acc).map Cand.file_path).Nodup) := by
  intro l
  induction l with
  | nil => intro acc hval hnodup; exact ⟨hval, hnodup⟩
  | cons x t ih =>
    intro acc hval hnodup
    rw [List.foldl_cons]
    obtain ⟨hv2, hn2⟩ := updateBest_valid_nodup acc x hval hnodup
    exact ih (updateBest acc x) hv2 hn2

theorem foldl_mono :
    ∀ (l : List Cand) (acc : List Cand),
      (∀ c ∈ acc, validCand c) → ((acc.map Cand.file_path).Nodup) →
      ∀ c0 ∈ acc, ∃ c2 ∈ l.foldl updateBest acc,
        c2.file_path = c0.file_path ∧ c0.score ≤ c2.score := by
  intro l
  induction l with
  | nil => intro acc _ _ c0 hc0; exact ⟨c0, hc0, rfl, le_refl _⟩
  | cons x t ih =>
    intro acc hval hnodup c0 hc0
    rw [List.foldl_cons]
    obtain ⟨hv2, hn2⟩ := updateBest_valid_nodup acc x hval hnodup
    obtain ⟨c1, hc1, hpath1, hs1⟩ := updateBest_mono acc x hnodup c0 hc0
    obtain ⟨c2, hc2, hpath2, hs2⟩ := ih (updateBest acc x) hv2 hn2 c1 hc1
    exact ⟨c2, hc2, by rw [hpath2, hpath1], le_trans hs1 hs2⟩

theorem foldl_presence :
    ∀ (l : List Cand) (acc : List Cand),
      (∀ c ∈ acc, validCand c) → ((acc.map Cand.file_path).Nodup) →
      ∀ x ∈ l, validCand x →
        ∃ c ∈ l.foldl updateBest acc, c.file_path = x.file_path := by
  intro l
  induction l with
  | nil => intro acc _ _ x hx; cases hx
  | cons y t ih =>
    intro acc hval hnodup x hx hvx
    rw [List.foldl_cons]
    obtain ⟨hv2, hn2⟩ := updateBest_valid_nodup acc y hval hnodup
    rcases List.mem_cons.mp hx with hxy | hxt
    · subst hxy
      rcases hvx with ⟨p, hp, hp2⟩
      obtain ⟨c1, hc1, hpath1⟩ := updateBest_presence acc x p hp hp2
      obtain ⟨c2, hc2, hpath2, _⟩ := foldl_mono t (updateBest acc x) hv2 hn2 c1 hc1
      exact ⟨c2, hc2, by rw [hpath2, hpath1]⟩
    · exact ih (updateBest acc y) hv2 hn2 x hxt hvx

theorem foldl_max :
    ∀ (l : List Cand) (acc : List Cand),
      (∀ c ∈ acc, validCand c) → ((acc.map Cand.file_path).Nodup) →
      ∀ c ∈ l.foldl updateBest acc, ∀ x ∈ l,
        x.file_path = c.file_path → x.score ≤ c.score := by
  intro l
  induction l with
  | nil => intro acc _ _ c _ x hx; cases hx
  | cons y t ih =>
    intro acc hval hnodup c hc x hx heq
    rw [List.foldl_cons] at hc
    obtain ⟨hv2, hn2⟩ := updateBest_valid_nodup acc y hval hnodup
    rcases List.mem_cons.mp hx with hxy | hxt
    · subst hxy
      obtain ⟨q, hq, hq2⟩ := (foldl_valid_nodup t (updateBest acc x) hv2 hn2).1 c hc
      match hxp : x.file_path with
      | Option.none => rw [hxp, hq] at heq; cases heq
      | some p =>
        have hpq : p = q := by rw [hxp, hq] at heq; injection heq
        subst hpq
        have hpne : p ≠ "" := hq2
        obtain ⟨c1, hc1, hpath1⟩ := updateBest_presence acc x p hxp hpne
        have hdom := updateBest_dominates acc x hval hnodup c1 hc1
          (by rw [hxp, hpath1, hxp])
        obtain ⟨c2, hc2, hpath2, hs2⟩ := foldl_mono t (updateBest acc x) hv2 hn2 c1 hc1
        have hceq : c = c2 := by
          refine List.inj_on_of_nodup_map (foldl_valid_nodup t (updateBest acc x) hv2 hn2).2
            hc hc2 ?_
          rw [hq, hpath2, hpath1, hxp]
        rw [hceq]
        exact le_trans hdom hs2
    · exact ih (updateBest acc y) hv2 hn2 c hc x hxt heq

/-- Claim C8: merging chunk results collapses every duplicate
file_path to a single entry carrying the maximum score seen for that
path (nothing with a truthy path is dropped, and paths are unique in
the output), and the ranking is sorted descending by score with ties
kept in first-seen order (the stable filter identity against the
insertion-ordered merge); the spec example `[{a,9}]`, `[{a,5},{b,7}]`
merges to `[{a,9},{b,7}]`. -/
theorem claim_C8_merge_rank (results : List (List Cand)) :
    ((mergeAndRank results).Pairwise (fun a b => b.score ≤ a.score)) ∧
    (((mergeAndRank results).map Cand.file_path).Nodup) ∧
    (∀ c ∈ mergeAndRank results, ∀ x ∈ results.flatten,
      x.file_path = c.file_path → x.score ≤ c.score) ∧
    (∀ x ∈ results.flatten, validCand x →
      ∃ c ∈ mergeAndRank results, c.file_path = x.file_path) ∧
    (∀ s : Int, (mergeAndRank results).filter (fun c => c.score = s) =
      (mergeBest results.flatten).filter (fun c => c.score = s)) ∧
    mergeAndRank [[⟨some "a", 9⟩], [⟨some "a", 5⟩, ⟨some "b", 7⟩]] =
      [⟨some "a", 9⟩, ⟨some "b", 7⟩] := by
  have hbase := foldl_valid_nodup results.flatten [] (by intro c hc; cases hc) (by simp)
  refine ⟨sortDesc_sorted _, ?_, ?_, ?_, fun s => sortDesc_filter _ s, rfl⟩
  · have hperm := List.Perm.map Cand.file_path (sortDesc_perm (mergeBest results.flatten))
    exact (List.Perm.nodup_iff hperm).mpr hbase.2
  · intro c hc x hx heq
    have hcm : c ∈ mergeBest results.flatten :=
      (sortDesc_perm (mergeBest results.flatten)).mem_iff.mp hc
    exact foldl_max results.flatten [] (by intro c2 hc2; cases hc2) (by simp) c hcm x hx heq
  · intro x hx hvx
    obtain ⟨c, hcm, hpath⟩ :=
      foldl_presence results.flatten [] (by intro c2 hc2; cases hc2) (by simp) x hx hvx
    exact ⟨c, (sortDesc_perm (mergeBest results.flatten)).mem_iff.mpr hcm, hpath⟩

/-- Claim C8 witness: on the spec example, the duplicate `a` keeps
score 9 (so 5 ≤ 9), path `b` is present, and the score-7 tie class
matches the first-seen merge order. -/
theorem claim_C8_merge_rank_witness :
    ((⟨some "a", 5⟩ : Cand).score ≤ (⟨some "a", 9⟩ : Cand).score) ∧
    (∃ c ∈ mergeAndRank [[⟨some "a", 9⟩], [⟨some "a", 5⟩, ⟨some "b", 7⟩]],
      c.file_path = (⟨some "b", 7⟩ : Cand).file_path) ∧
    ((mergeAndRank [[⟨some "a", 9⟩], [⟨some "a", 5⟩, ⟨some "b", 7⟩]]).filter
        (fun c => c.score = 7) =
      (mergeBest [[⟨some "a", 9⟩], [⟨some "a", 5⟩, ⟨some "b", 7⟩]].flatten).filter
        (fun c => c.score = 7)) := by
  refine ⟨?_, ?_, ?_⟩
  · exact (claim_C8_merge_rank [[⟨some "a", 9⟩], [⟨some "a", 5⟩, ⟨some "b", 7⟩]]).2.2.1
      ⟨some "a", 9⟩ (by decide) ⟨some "a", 5⟩ (by decide) rfl
  · exact (claim_C8_merge_rank [[⟨some "a", 9⟩], [⟨some "a", 5⟩, ⟨some "b", 7⟩]]).2.2.2.1
      ⟨some "b", 7⟩ (by decide) ⟨"b", rfl, by decide⟩
  · exact (claim_C8_merge_rank [[⟨some "a", 9⟩], [⟨some "a", 5⟩, ⟨some "b", 7⟩]]).2.2.2.2.1 7

end CloudDdb
namespace CloudDdb

/-- The opening tag `<t>` of a tool or parameter name. -/
def openTagOf (t : List Char) : List Char := '<' :: (t ++ ['>'])

/-- The closing tag `</t>`. -/
def closeTagOf (t : List Char) : List Char := '<' :: '/' :: (t ++ ['>'])

theorem findSub_self (pat B : List Char) : findSub pat (pat ++ B) = some 0 := by
  cases hp : pat ++ B with
  | nil =>
    rcases List.append_eq_nil.mp hp with ⟨h1, h2⟩
    subst h1
    simp [findSub]
  | cons c t =>
    have hpre : pat.isPrefixOf (pat ++ B) = true := by
      rw [List.isPrefixOf_iff_prefix]
      exact List.prefix_append pat B
    rw [hp] at hpre
    simp [findSub, hpre]

theorem findSub_cons_neg (pat : List Char) (c : Char) (t : List Char)
    (h : pat.isPrefixOf (c :: t) = false) :
    findSub pat (c :: t) = (findSub pat t).map (· + 1) := by
  simp [findSub, h]

theorem isPrefixOf_cons_false (p' : List Char) (c : Char) (t : List Char) (hc : c ≠ '<') :
    (('<' :: p').isPrefixOf (c :: t)) = false := by
  simp [List.isPrefixOf]
  intro h
  exact absurd h.symm hc

theorem findSub_skip_run (pat : List Char) (p' : List Char) (hpat : pat = '<' :: p')
    (A : List Char) (hA : ∀ a ∈ A, a ≠ '<') (B : List Char) :
    findSub pat (A ++ B) = (findSub pat B).map (· + A.length) := by
  induction A with
  | nil =>
    cases h : findSub pat B <;> simp [h]
  | cons a A' ih =>
    have hne : pat.isPrefixOf (a :: (A' ++ B)) = false := by
      rw [hpat]
      exact isPrefixOf_cons_false p' a _ (hA a (List.mem_cons_self a A'))
    rw [List.cons_append, findSub_cons_neg pat a _ hne,
      ih (fun x hx => hA x (List.mem_cons_of_mem a hx))]
    cases findSub pat B <;> simp
    omega

theorem findSub_skip_one (pat : List Char) (p' : List Char) (hpat : pat = '<' :: p')
    (c : Char) (hc : c ≠ '<') (B : List Char) :
    findSub pat (c :: B) = (findSub pat B).map (· + 1) := by
  have := findSub_skip_run pat p' hpat [c] (by intro a ha; rw [List.mem_singleton] at ha; subst ha; exact hc) B
  simpa using this

theorem wordChar_ne (c : Char) (h : isWordChar c = true) :
    c ≠ '<' ∧ c ≠ '>' ∧ c ≠ '/' := by
  refine ⟨?_, ?_, ?_⟩ <;> intro heq <;> subst heq <;> simp [isWordChar] at h

theorem wordrun_tag_no_prefix :
    ∀ (a b : List Char), (∀ c ∈ a, isWordChar c) → (∀ c ∈ b, isWordChar c) →
      a ≠ b → ∀ rest, ((a ++ ['>']).isPrefixOf (b ++ '>' :: rest)) = false := by
  intro a
  induction a with
  | nil =>
    intro b _ hb hne rest
    cases b with
    | nil => exact absurd rfl hne
    | cons b0 b' =>
      have hb0 := wordChar_ne b0 (hb b0 (List.mem_cons_self _ _))
      simp [List.isPrefixOf]
      intro h
      exact absurd h hb0.2.1.symm
  | cons a0 a' ih =>
    intro b ha hb hne rest
    cases b with
    | nil =>
      have ha0 := wordChar_ne a0 (ha a0 (List.mem_cons_self _ _))
      simp [List.isPrefixOf]
      intro h
      exact absurd h ha0.2.1
    | cons b0 b' =>
      by_cases heq : a0 = b0
      · subst heq
        have hne' : a' ≠ b' := by
          intro h; subst h; exact hne rfl
        have := ih b' (fun c hc => ha c (List.mem_cons_of_mem _ hc))
          (fun c hc => hb c (List.mem_cons_of_mem _ hc)) hne' rest
        simpa [List.isPrefixOf] using this
      · simp [List.isPrefixOf]
        intro h
        exact absurd h heq

end CloudDdb
namespace CloudDdb

/-- The rendering of one well-formed `<name>value</name>` pair. -/
def renderParam (p : List Char × List Char) : List Char :=
  '<' :: (p.1 ++ ('>' :: (p.2 ++ ('<' :: '/' :: (p.1 ++ ['>'])))))

/-- The rendering of a parameter block: the pairs, adjacent. -/
def renderParams (ps : List (List Char × List Char)) : List Char :=
  (ps.map renderParam).flatten

/-- Well-formedness of one parameter pair relative to the enclosing
tool tag: nonempty word-character name different from the tool name,
and a value containing no `<`. -/
def wfParam (tool : List Char) (p : List Char × List Char) : Prop :=
  p.1 ≠ [] ∧ (∀ c ∈ p.1, isWordChar c) ∧ p.1 ≠ tool ∧ (∀ c ∈ p.2, c ≠ '<')

theorem close_no_match_at_open (tool n rest : List Char) (hn : n ≠ [])
    (hw : ∀ c ∈ n, isWordChar c) :
    ((closeTagOf tool).isPrefixOf ('<' :: (n ++ rest))) = false := by
  cases n with
  | nil => exact absurd rfl hn
  | cons n0 n' =>
    have h0 := wordChar_ne n0 (hw n0 (List.mem_cons_self _ _))
    simp [closeTagOf, List.isPrefixOf]
    intro h
    exact absurd h h0.2.2.symm

theorem close_no_match_at_close (tool n rest : List Char)
    (htool : ∀ c ∈ tool, isWordChar c) (hn : ∀ c ∈ n, isWordChar c) (hne : tool ≠ n) :
    ((closeTagOf tool).isPrefixOf ('<' :: '/' :: (n ++ '>' :: rest))) = false := by
  have h := wordrun_tag_no_prefix tool n htool hn hne rest
  simpa [closeTagOf, List.isPrefixOf] using h

theorem findSub_close_render (tool : List Char) (htool : ∀ c ∈ tool, isWordChar c) :
    ∀ (ps : List (List Char × List Char)), (∀ p ∈ ps, wfParam tool p) →
    ∀ B, findSub (closeTagOf tool) (renderParams ps ++ (closeTagOf tool ++ B)) =
      some (renderParams ps).length := by
  intro ps
  induction ps with
  | nil =>
    intro _ B
    simp only [renderParams, List.map_nil, List.flatten_nil, List.nil_append,
      List.length_nil]
    exact findSub_self _ B
  | cons p ps' ih =>
    intro hwf B
    obtain ⟨hne, hw, hnet, hv⟩ := hwf p (List.mem_cons_self _ _)
    have hIH := ih (fun q hq => hwf q (List.mem_cons_of_mem _ hq)) B
    have hshape : renderParams (p :: ps') ++ (closeTagOf tool ++ B) =
        '<' :: (p.1 ++ ('>' :: (p.2 ++ ('<' :: '/' :: (p.1 ++ ('>' ::
          (renderParams ps' ++ (closeTagOf tool ++ B)))))))) := by
      simp [renderParams, renderParam, List.append_assoc]
    set S := renderParams ps' ++ (closeTagOf tool ++ B) with hS
    set clo := closeTagOf tool with hclo
    have hcp : clo = '<' :: ('/' :: (tool ++ ['>'])) := rfl
    have h7 : findSub clo ('>' :: S) = some ((renderParams ps').length + 1) := by
      rw [findSub_skip_one clo _ hcp '>' (by decide) S, hIH]
      rfl
    have h6 : findSub clo (p.1 ++ ('>' :: S)) =
        some ((renderParams ps').length + 1 + p.1.length) := by
      rw [findSub_skip_run clo _ hcp p.1 (fun c hc => (wordChar_ne c (hw c hc)).1) _, h7]
      rfl
    have h5 : findSub clo ('/' :: (p.1 ++ ('>' :: S))) =
        some ((renderParams ps').length + 1 + p.1.length + 1) := by
      rw [findSub_skip_one clo _ hcp '/' (by decide) _, h6]
      rfl
    have h4 : findSub clo ('<' :: '/' :: (p.1 ++ ('>' :: S))) =
        some ((renderParams ps').length + 1 + p.1.length + 1 + 1) := by
      rw [findSub_cons_neg clo '<' _
        (close_no_match_at_close tool p.1 S htool hw (fun h => hnet h.symm)), h5]
      rfl
    have h3 : findSub clo (p.2 ++ ('<' :: '/' :: (p.1 ++ ('>' :: S)))) =
        some ((renderParams ps').length + 1 + p.1.length + 1 + 1 + p.2.length) := by
      rw [findSub_skip_run clo _ hcp p.2 hv _, h4]
      rfl
    have h2 : findSub clo ('>' :: (p.2 ++ ('<' :: '/' :: (p.1 ++ ('>' :: S))))) =
        some ((renderParams ps').length + 1 + p.1.length + 1 + 1 + p.2.length + 1) := by
      rw [findSub_skip_one clo _ hcp '>' (by decide) _, h3]
      rfl
    have h1 : findSub clo (p.1 ++ ('>' :: (p.2 ++ ('<' :: '/' :: (p.1 ++ ('>' :: S)))))) =
        some ((renderParams ps').length + 1 + p.1.length + 1 + 1 + p.2.length + 1 +
          p.1.length) := by
      rw [findSub_skip_run clo _ hcp p.1 (fun c hc => (wordChar_ne c (hw c hc)).1) _, h2]
      rfl
    have h0 : findSub clo ('<' :: (p.1 ++ ('>' :: (p.2 ++
        ('<' :: '/' :: (p.1 ++ ('>' :: S))))))) =
        some ((renderParams ps').length + 1 + p.1.length + 1 + 1 + p.2.length + 1 +
          p.1.length + 1) := by
      rw [findSub_cons_neg clo '<' _
        (close_no_match_at_open tool p.1 _ hne hw), h1]
      rfl
    rw [hshape, h0]
    congr 1
    simp [renderParams, renderParam, List.length_append]
    omega

end CloudDdb
namespace CloudDdb

theorem toolTagAt_none_of_ne (tools : List String) (c : Char) (t : List Char)
    (hc : c ≠ '<') : toolTagAt tools (c :: t) = Option.none := by
  apply List.find?_eq_none.mpr
  intro tl _ h
  rw [isPrefixOf_cons_false (tl.toList ++ ['>']) c t hc] at h
  cases h

theorem findToolTag_skip_run (tools : List String) (A : List Char)
    (hA : ∀ a ∈ A, a ≠ '<') (B : List Char) :
    findToolTag tools (A ++ B) =
      (findToolTag tools B).map (fun q => (q.1 + A.length, q.2)) := by
  induction A with
  | nil =>
    cases h : findToolTag tools B with
    | none => simp [h]
    | some q => simp [h]
  | cons a A' ih =>
    rw [List.cons_append]
    have h1 : findToolTag tools (a :: (A' ++ B)) =
        (findToolTag tools (A' ++ B)).map (fun p => (p.1 + 1, p.2)) := by
      simp [findToolTag, toolTagAt_none_of_ne tools a _ (hA a (List.mem_cons_self _ _))]
    rw [h1, ih (fun x hx => hA x (List.mem_cons_of_mem a hx))]
    cases findToolTag tools B with
    | none => simp
    | some q => simp; omega

theorem findToolTag_here (tools : List String) (c : Char) (rest : List Char) (tl : String)
    (h : toolTagAt tools (c :: rest) = some tl) :
    findToolTag tools (c :: rest) = some (0, tl) := by
  simp [findToolTag, h]

theorem takeWhile_word_run (A R : List Char) (hA : ∀ a ∈ A, isWordChar a) :
    ((A ++ '>' :: R).takeWhile isWordChar) = A := by
  induction A with
  | nil =>
    rw [List.nil_append, List.takeWhile_cons]
    simp [show isWordChar '>' = false from by decide]
  | cons a A' ih =>
    rw [List.cons_append, List.takeWhile_cons, hA a (List.mem_cons_self _ _)]
    rw [ih (fun x hx => hA x (List.mem_cons_of_mem a hx))]
    simp

theorem dropWhile_cons_false (p : Char → Bool) (c : Char) (t : List Char)
    (h : p c = false) : (c :: t).dropWhile p = c :: t := by
  simp [List.dropWhile_cons, h]

theorem strip_of_ends (s : List Char) (c1 : Char) (h1 : s.head? = some c1)
    (hc1 : isPyWs c1 = false) (A : List Char) (c2 : Char) (h2 : s = A ++ [c2])
    (hc2 : isPyWs c2 = false) : strip s = s := by
  have hd : s.dropWhile isPyWs = s := by
    cases s with
    | nil => cases h1
    | cons a t =>
      have : a = c1 := by
        simpa using h1
      subst this
      exact dropWhile_cons_false _ a t hc1
  have hr : s.reverse.dropWhile isPyWs = s.reverse := by
    rw [h2, List.reverse_append]
    simp only [List.reverse_singleton, List.singleton_append]
    exact dropWhile_cons_false _ c2 A.reverse hc2
  unfold strip
  rw [hd, hr, List.reverse_reverse]

theorem renderParams_ends (ps : List (List Char × List Char)) (hne : ps ≠ []) :
    ∃ A, renderParams ps = A ++ ['>'] := by
  induction ps with
  | nil => exact absurd rfl hne
  | cons p ps' ih =>
    cases ps' with
    | nil =>
      refine ⟨'<' :: (p.1 ++ ('>' :: (p.2 ++ ('<' :: '/' :: p.1)))), ?_⟩
      simp [renderParams, renderParam, List.append_assoc]
    | cons q ps2 =>
      obtain ⟨A, hA⟩ := ih (by simp)
      refine ⟨renderParam p ++ A, ?_⟩
      have : renderParams (p :: q :: ps2) = renderParam p ++ renderParams (q :: ps2) := by
        simp [renderParams]
      rw [this, hA, List.append_assoc]

theorem strip_renderParams (ps : List (List Char × List Char)) :
    strip (renderParams ps) = renderParams ps := by
  cases hps : ps with
  | nil => rfl
  | cons p ps' =>
    have hhead : (renderParams (p :: ps')).head? = some '<' := by
      simp [renderParams, renderParam]
    obtain ⟨A, hA⟩ := renderParams_ends (p :: ps') (by simp)
    exact strip_of_ends _ '<' hhead (by decide) A '>' hA (by decide)

theorem setParam_append (acc : List (String × ArgVal)) (k : String) (v : ArgVal)
    (h : acc.any (fun p => p.1 = k) = false) : setParam acc k v = acc ++ [(k, v)] := by
  simp [setParam, h]

theorem buildParams_go :
    ∀ (pairs : List (List Char × List Char)) (acc : List (String × ArgVal)),
      ((pairs.map (fun p => String.mk p.1)).Nodup) →
      (∀ p ∈ pairs, String.mk p.1 ≠ "options") →
      (∀ p ∈ pairs, acc.any (fun q => q.1 = String.mk p.1) = false) →
      pairs.foldl buildStep acc =
        acc ++ pairs.map (fun p => (String.mk p.1, ArgVal.s (String.mk (strip p.2)))) := by
  intro pairs
  induction pairs with
  | nil => intro acc _ _ _; simp
  | cons p rest ih =>
    intro acc hnodup hnoopt hnew
    rw [List.foldl_cons]
    have hstep : buildStep acc p = acc ++ [(String.mk p.1, ArgVal.s (String.mk (strip p.2)))] := by
      unfold buildStep
      rw [if_neg (hnoopt p (List.mem_cons_self _ _))]
      exact setParam_append acc _ _ (hnew p (List.mem_cons_self _ _))
    rw [hstep]
    rw [List.map_cons] at hnodup
    have hnodup' := List.Nodup.of_cons hnodup
    have hhead : String.mk p.1 ∉ rest.map (fun q => String.mk q.1) :=
      (List.nodup_cons.mp hnodup).1
    have hrest : ∀ q ∈ rest, ((acc ++
        [(String.mk p.1, ArgVal.s (String.mk (strip p.2)))]).any
          (fun r => r.1 = String.mk q.1)) = false := by
      intro q hq
      rw [List.any_append]
      have h1 : acc.any (fun r => r.1 = String.mk q.1) = false :=
        hnew q (List.mem_cons_of_mem p hq)
      have h2 : ([(String.mk p.1, ArgVal.s (String.mk (strip p.2)))].any
          (fun r => r.1 = String.mk q.1)) = false := by
        simp only [List.any_cons, List.any_nil, Bool.or_false]
        rw [decide_eq_false_iff_not]
        intro heq
        exact hhead (heq ▸ List.mem_map.mpr ⟨q, hq, rfl⟩)
      rw [h1, h2]
      rfl
    rw [ih (acc ++ [(String.mk p.1, ArgVal.s (String.mk (strip p.2)))]) hnodup'
      (fun q hq => hnoopt q (List.mem_cons_of_mem p hq)) hrest]
    simp

theorem buildParams_map (pairs : List (List Char × List Char))
    (hnodup : (pairs.map (fun p => String.mk p.1)).Nodup)
    (hnoopt : ∀ p ∈ pairs, String.mk p.1 ≠ "options") :
    buildParams pairs =
      pairs.map (fun p => (String.mk p.1, ArgVal.s (String.mk (strip p.2)))) := by
  unfold buildParams
  rw [buildParams_go pairs [] hnodup hnoopt (by intro q _; rfl)]
  simp

end CloudDdb
namespace CloudDdb

theorem findParamPairsAux_no_lt :
    ∀ (fuel : Nat) (s : List Char), (∀ c ∈ s, c ≠ '<') →
      findParamPairsAux fuel s = [] := by
  intro fuel
  induction fuel with
  | zero => intro s _; rfl
  | succ f ih =>
    intro s hs
    cases s with
    | nil => rfl
    | cons c t =>
      have hc : c ≠ '<' := hs c (List.mem_cons_self _ _)
      simp only [findParamPairsAux, if_neg hc]
      exact ih t (fun x hx => hs x (List.mem_cons_of_mem c hx))

theorem mem_of_mem_strip {c : Char} {s : List Char} (h : c ∈ strip s) : c ∈ s := by
  unfold strip at h
  rw [List.mem_reverse] at h
  have h2 := (List.dropWhile_sublist (p := isPyWs)
    (l := (s.dropWhile isPyWs).reverse)).subset h
  rw [List.mem_reverse] at h2
  exact (List.dropWhile_sublist (p := isPyWs) (l := s)).subset h2

theorem findParamPairs_no_lt (s : List Char) (hs : ∀ c ∈ s, c ≠ '<') :
    findParamPairs s = [] :=
  findParamPairsAux_no_lt s.length s hs

theorem renderParam_shape (p : List Char × List Char) (R : List Char) :
    renderParam p ++ R =
      '<' :: (p.1 ++ ('>' :: (p.2 ++ ('<' :: '/' :: (p.1 ++ ('>' :: R)))))) := by
  simp [renderParam, List.append_assoc]

theorem findParamPairsAux_render :
    ∀ (ps : List (List Char × List Char)),
      (∀ p ∈ ps, p.1 ≠ [] ∧ (∀ c ∈ p.1, isWordChar c) ∧ (∀ c ∈ p.2, c ≠ '<')) →
      ∀ (fuel : Nat), (renderParams ps).length ≤ fuel →
        findParamPairsAux fuel (renderParams ps) = ps := by
  intro ps
  induction ps with
  | nil =>
    intro _ fuel _
    cases fuel <;> rfl
  | cons p ps' ih =>
    intro hwf fuel hlen
    obtain ⟨hne, hw, hv⟩ := hwf p (List.mem_cons_self _ _)
    have hshape : renderParams (p :: ps') =
        '<' :: (p.1 ++ ('>' :: (p.2 ++ ('<' :: '/' :: (p.1 ++ ('>' :: renderParams ps')))))) := by
      have : renderParams (p :: ps') = renderParam p ++ renderParams ps' := by
        simp [renderParams]
      rw [this, renderParam_shape]
    have hlenp : (renderParams (p :: ps')).length =
        (renderParams ps').length + (2 * p.1.length + p.2.length + 5) := by
      rw [hshape]
      simp only [List.length_cons, List.length_append]
      omega
    cases fuel with
    | zero =>
      rw [hlenp] at hlen
      omega
    | succ f =>
      rw [hshape]
      have hname : (p.1 ++ ('>' :: (p.2 ++ ('<' :: '/' :: (p.1 ++ ('>' :: renderParams ps')))))).takeWhile
          isWordChar = p.1 := takeWhile_word_run p.1 _ hw
      have hnemp : (!p.1.isEmpty) = true := by
        rw [Bool.not_eq_true', List.isEmpty_eq_false]
        exact hne
      have hdropn : (p.1 ++ ('>' :: (p.2 ++ ('<' :: '/' :: (p.1 ++ ('>' :: renderParams ps')))))).drop
          p.1.length = '>' :: (p.2 ++ ('<' :: '/' :: (p.1 ++ ('>' :: renderParams ps')))) :=
        List.drop_left p.1 _
      have hdropn1 : (p.1 ++ ('>' :: (p.2 ++ ('<' :: '/' :: (p.1 ++ ('>' :: renderParams ps')))))).drop
          (p.1.length + 1) = p.2 ++ ('<' :: '/' :: (p.1 ++ ('>' :: renderParams ps'))) := by
        rw [List.drop_append 1]
        rfl
      have hR2 : p.2 ++ ('<' :: '/' :: (p.1 ++ ('>' :: renderParams ps'))) =
          p.2 ++ (('<' :: '/' :: (p.1 ++ ['>'])) ++ renderParams ps') := by
        simp [List.append_assoc]
      have hfind : findSub ('<' :: '/' :: (p.1 ++ ['>']))
          (p.2 ++ ('<' :: '/' :: (p.1 ++ ('>' :: renderParams ps')))) = some p.2.length := by
        rw [hR2, findSub_skip_run _ ('/' :: (p.1 ++ ['>'])) rfl p.2 hv _, findSub_self]
        simp
      have htake : (p.2 ++ ('<' :: '/' :: (p.1 ++ ('>' :: renderParams ps')))).take p.2.length =
          p.2 := List.take_left p.2 _
      have hdropk : (p.2 ++ ('<' :: '/' :: (p.1 ++ ('>' :: renderParams ps')))).drop
          (p.2.length + (p.1.length + 3)) = renderParams ps' := by
        rw [List.drop_append (p.1.length + 3)]
        have h9 : ('<' :: '/' :: (p.1 ++ ('>' :: renderParams ps'))) =
            ('<' :: '/' :: (p.1 ++ ['>'])) ++ renderParams ps' := by
          simp [List.append_assoc]
        rw [h9]
        rw [show p.1.length + 3 = ('<' :: '/' :: (p.1 ++ ['>'])).length from by
          simp only [List.length_cons, List.length_append, List.length_nil]]
        exact List.drop_left _ _
      have hrest : (renderParams ps').length ≤ f := by omega
      simp only [findParamPairsAux, hname, hnemp, hdropn, hdropn1, hfind, htake, hdropk,
        List.head?_cons, Bool.true_and, if_true, reduceIte]
      rw [ih (fun q hq => hwf q (List.mem_cons_of_mem p hq)) f hrest]
      simp

theorem findParamPairs_render (ps : List (List Char × List Char))
    (hwf : ∀ p ∈ ps, p.1 ≠ [] ∧ (∀ c ∈ p.1, isWordChar c) ∧ (∀ c ∈ p.2, c ≠ '<')) :
    findParamPairs (renderParams ps) = ps :=
  findParamPairsAux_render ps hwf (renderParams ps).length (le_refl _)

theorem extractThought_render (T : List Char) (hT : ∀ c ∈ T, c ≠ '<') (R : List Char) :
    extractThought ("<thinking>".toList ++ (T ++ ("</thinking>".toList ++ R))) =
      (String.mk (strip T), R) := by
  have h1 : findSub "<thinking>".toList
      ("<thinking>".toList ++ (T ++ ("</thinking>".toList ++ R))) = some 0 :=
    findSub_self _ _
  have hdrop10 : ("<thinking>".toList ++ (T ++ ("</thinking>".toList ++ R))).drop (0 + 10) =
      T ++ ("</thinking>".toList ++ R) := by
    rw [Nat.zero_add, show (10 : Nat) = ("<thinking>".toList).length from rfl,
      List.drop_left]
  have hclose : findSub "</thinking>".toList (T ++ ("</thinking>".toList ++ R)) =
      some T.length := by
    rw [findSub_skip_run ("</thinking>".toList) ("/thinking>".toList) rfl T hT _, findSub_self]
    simp
  have hdrop11 : (T ++ ("</thinking>".toList ++ R)).drop (T.length + 11) = R := by
    rw [List.drop_append 11, show (11 : Nat) = ("</thinking>".toList).length from rfl,
      List.drop_left]
  unfold extractThought
  simp only [h1, hdrop10, hclose, List.take_left, hdrop11]

end CloudDdb
namespace CloudDdb

/-- At the position of `<t1>` (a word-run tag of a known tool), the
alternation `re.search("<(t1|t2|...)>")` matches tool `t1`, whatever
the order of the alternatives: no other word-run tag `<t>` can be a
prefix of `<t1>X`. -/
theorem toolTagAt_at_tag :
    ∀ (tools : List String) (t1 : String), t1 ∈ tools →
      (∀ c ∈ t1.toList, isWordChar c) →
      (∀ t ∈ tools, ∀ c ∈ t.toList, isWordChar c) →
      ∀ X, toolTagAt tools (openTagOf t1.toList ++ X) = some t1 := by
  intro tools
  induction tools with
  | nil =>
    intro t1 hmem
    cases hmem
  | cons t ts ih =>
    intro t1 hmem ht1 hall X
    by_cases heq : t = t1
    · subst heq
      have hpre : ((openTagOf t.toList).isPrefixOf (openTagOf t.toList ++ X)) = true := by
        rw [ List.isPrefixOf_iff_prefix]
        exact List.prefix_append _ _
      unfold toolTagAt
      exact List.find?_cons_of_pos ts hpre
    · have hmem2 : t1 ∈ ts := by
        cases hmem with
        | head => exact absurd rfl heq
        | tail _ h => exact h
      have hne : t.toList ≠ t1.toList := fun h => heq (congrArg String.mk h)
      have hfalse : (('<' :: (t.toList ++ ['>'])).isPrefixOf
          (openTagOf t1.toList ++ X)) = false := by
        have h1 : openTagOf t1.toList ++ X = '<' :: (t1.toList ++ ('>' :: X)) := by
          simp [openTagOf]
        rw [h1]
        have h2 := wordrun_tag_no_prefix t.toList t1.toList
          (hall t (List.mem_cons_self _ _)) ht1 hne X
        simpa [List.isPrefixOf] using h2
      unfold toolTagAt
      rw [List.find?_cons_of_neg ts (by simp only [hfalse]; decide)]
      exact ih t1 hmem2 ht1 (fun u hu => hall u (List.mem_cons_of_mem _ hu)) X

/-- Computation of `_parse_xml_response` on a fully rendered response:
a thinking block, separator text without `<`, one tool element whose
body is a list of well-formed `<param>value</param>` pairs, then an
arbitrary tail.  The parser returns the stripped thought, the tool's
name, and each parameter's stripped value. -/
theorem parseChars_render (tools : List String) (t1 : String) (T sep tail : List Char)
    (ps : List (List Char × List Char))
    (hT : ∀ c ∈ T, c ≠ '<') (hsep : ∀ c ∈ sep, c ≠ '<')
    (hmem : t1 ∈ tools)
    (hall : ∀ t ∈ tools, ∀ c ∈ t.toList, isWordChar c)
    (hwf : ∀ p ∈ ps, wfParam t1.toList p)
    (hnodup : (ps.map (fun p => String.mk p.1)).Nodup)
    (hnoopt : ∀ p ∈ ps, String.mk p.1 ≠ "options") :
    parseChars ("<thinking>".toList ++ (T ++ ("</thinking>".toList ++
        (sep ++ (openTagOf t1.toList ++ (renderParams ps ++ (closeTagOf t1.toList ++ tail)))))))
      tools =
      ⟨String.mk (strip T),
       some ⟨t1, ps.map (fun p => (String.mk p.1, ArgVal.s (String.mk (strip p.2))))⟩⟩ := by
  have ht1 : ∀ c ∈ t1.toList, isWordChar c := hall t1 hmem
  have hex : extractThought ("<thinking>".toList ++ (T ++ ("</thinking>".toList ++
      (sep ++ (openTagOf t1.toList ++ (renderParams ps ++ (closeTagOf t1.toList ++ tail))))))) =
      (String.mk (strip T),
       sep ++ (openTagOf t1.toList ++ (renderParams ps ++ (closeTagOf t1.toList ++ tail)))) :=
    extractThought_render T hT _
  have htag : toolTagAt tools
      ('<' :: ((t1.toList ++ ['>']) ++ (renderParams ps ++ (closeTagOf t1.toList ++ tail)))) =
      some t1 :=
    toolTagAt_at_tag tools t1 hmem ht1 hall _
  have hft0 : findToolTag tools
      (openTagOf t1.toList ++ (renderParams ps ++ (closeTagOf t1.toList ++ tail))) =
      some (0, t1) :=
    findToolTag_here tools '<' _ t1 htag
  have hft : findToolTag tools
      (sep ++ (openTagOf t1.toList ++ (renderParams ps ++ (closeTagOf t1.toList ++ tail)))) =
      some (0 + sep.length, t1) := by
    rw [findToolTag_skip_run tools sep hsep _, hft0]
    rfl
  have hopen : findSub ('<' :: (t1.toList ++ ['>']))
      (sep ++ (openTagOf t1.toList ++ (renderParams ps ++ (closeTagOf t1.toList ++ tail)))) =
      some (0 + sep.length) := by
    rw [findSub_skip_run ('<' :: (t1.toList ++ ['>'])) (t1.toList ++ ['>']) rfl sep hsep _]
    rw [show (openTagOf t1.toList ++ (renderParams ps ++ (closeTagOf t1.toList ++ tail))) =
      ('<' :: (t1.toList ++ ['>'])) ++ (renderParams ps ++ (closeTagOf t1.toList ++ tail))
      from rfl]
    rw [findSub_self]
    rfl
  have hafter : (sep ++ (openTagOf t1.toList ++ (renderParams ps ++
      (closeTagOf t1.toList ++ tail)))).drop (0 + sep.length + (t1.toList.length + 2)) =
      renderParams ps ++ (closeTagOf t1.toList ++ tail) := by
    rw [Nat.zero_add, List.drop_append (t1.toList.length + 2)]
    rw [show t1.toList.length + 2 = (openTagOf t1.toList).length from by
      simp [openTagOf]]
    exact List.drop_left _ _
  have hclose : findSub ('<' :: '/' :: (t1.toList ++ ['>']))
      (renderParams ps ++ (closeTagOf t1.toList ++ tail)) = some (renderParams ps).length :=
    findSub_close_render t1.toList ht1 ps hwf tail
  have htk : (renderParams ps ++ (closeTagOf t1.toList ++ tail)).take
      (renderParams ps).length = renderParams ps :=
    List.take_left _ _
  have hpairs : findParamPairs (strip (renderParams ps)) = ps := by
    rw [strip_renderParams]
    exact findParamPairs_render ps
      (fun p hp => ⟨(hwf p hp).1, (hwf p hp).2.1, (hwf p hp).2.2.2⟩)
  unfold parseChars
  simp only [hex, hft, hopen, hafter, hclose, htk, hpairs]
  rw [buildParams_map ps hnodup hnoopt]

/-- C4: on a response made of a `<thinking>` block followed by exactly
one known tool element with well-formed `<param>value</param>` pairs,
`_parse_xml_response` returns that tool's name and every declared
parameter's value with surrounding whitespace stripped; and when a
second known tool tag occurs later in the text, the parser still
selects the tool whose opening tag occurs first textually, whatever
the order (or relative length) of the known-tool alternatives. -/
theorem claim_C4 (tools : List String) (t1 : String) (T sep : List Char)
    (ps : List (List Char × List Char))
    (hT : ∀ c ∈ T, c ≠ '<') (hsep : ∀ c ∈ sep, c ≠ '<')
    (hmem : t1 ∈ tools)
    (hall : ∀ t ∈ tools, ∀ c ∈ t.toList, isWordChar c)
    (hwf : ∀ p ∈ ps, wfParam t1.toList p)
    (hnodup : (ps.map (fun p => String.mk p.1)).Nodup)
    (hnoopt : ∀ p ∈ ps, String.mk p.1 ≠ "options") :
    (∀ tail, parseChars ("<thinking>".toList ++ (T ++ ("</thinking>".toList ++
        (sep ++ (openTagOf t1.toList ++ (renderParams ps ++ (closeTagOf t1.toList ++ tail)))))))
        tools =
      ⟨String.mk (strip T),
       some ⟨t1, ps.map (fun p => (String.mk p.1, ArgVal.s (String.mk (strip p.2))))⟩⟩) ∧
    (∀ (t2 : String) (mid2 val2 tail2 : List Char), t2 ∈ tools →
      parseChars ("<thinking>".toList ++ (T ++ ("</thinking>".toList ++
        (sep ++ (openTagOf t1.toList ++ (renderParams ps ++ (closeTagOf t1.toList ++
          (mid2 ++ (openTagOf t2.toList ++ (val2 ++ (closeTagOf t2.toList ++ tail2)))))))))))
        tools =
      ⟨String.mk (strip T),
       some ⟨t1, ps.map (fun p => (String.mk p.1, ArgVal.s (String.mk (strip p.2))))⟩⟩) :=
  ⟨fun tail => parseChars_render tools t1 T sep tail ps hT hsep hmem hall hwf hnodup hnoopt,
   fun t2 mid2 val2 tail2 _ =>
     parseChars_render tools t1 T sep
       (mid2 ++ (openTagOf t2.toList ++ (val2 ++ (closeTagOf t2.toList ++ tail2)))) ps
       hT hsep hmem hall hwf hnodup hnoopt⟩

/-- C4 witness: with known tools `["sqlplus", "sql"]` (the longer name
listed first), the response text contains `<sql>` first and
`<sqlplus>` later; the parser returns tool `sql` with the stripped
`query` parameter, although `sqlplus` is both longer and earlier in
the alternation. -/
theorem claim_C4_witness :
    parseChars
      "<thinking> plan </thinking> <sql><query> SELECT 1 </query></sql> <sqlplus>y</sqlplus>".toList
      ["sqlplus", "sql"] =
      ⟨"plan", some ⟨"sql", [("query", ArgVal.s "SELECT 1")]⟩⟩ := by
  have hwf1 : ∀ p ∈ [(("query".toList : List Char), " SELECT 1 ".toList)],
      wfParam "sql".toList p := by
    intro p hp
    rw [List.mem_singleton] at hp
    subst hp
    exact ⟨by decide, by decide, by decide, by decide⟩
  have h := (claim_C4 ["sqlplus", "sql"] "sql" " plan ".toList " ".toList
      [("query".toList, " SELECT 1 ".toList)]
      (by decide) (by decide) (by decide) (by decide) hwf1 (by decide) (by decide)).2
      "sqlplus" " ".toList "y".toList [] (by decide)
  have hinput :
      "<thinking> plan </thinking> <sql><query> SELECT 1 </query></sql> <sqlplus>y</sqlplus>".toList =
      "<thinking>".toList ++ (" plan ".toList ++ ("</thinking>".toList ++
        (" ".toList ++ (openTagOf "sql".toList ++
          (renderParams [("query".toList, " SELECT 1 ".toList)] ++
            (closeTagOf "sql".toList ++
              (" ".toList ++ (openTagOf "sqlplus".toList ++
                ("y".toList ++ (closeTagOf "sqlplus".toList ++ ([] : List Char))))))))))) := by
    decide
  rw [hinput, h]
  rfl

end CloudDdb
